import Mathlib

/-!
rapid-grep: shallow embedding of `src/rapid-grep.cpp`.

The program is a single translation unit.  Its functions are embedded as
pure Lean functions:

* a `std::string` is a list of bytes (`Str`);
* `std::cout` / `std::cerr` are logs of the chunks written, one chunk per
  statement ending in `std::endl` (the byte stream is the concatenation);
* `is_stdout_terminal()` (that is `isatty(1)`), the content of standard
  input and the directory walk are inputs of the model;
* a C++ exception (`std::out_of_range` from `substr`, a
  `filesystem_error` from the directory iterator) is the `none` outcome.

Library routines used by the program (`std::string::find`, `substr`,
`tolower` in the "C" locale, `std::getline`, GNU `getopt_long`) are
embedded by executable definitions that follow their documented behaviour.
-/

namespace RapidGrep

/-! ## Strings -/

/-- One `char` of a `std::string`. -/
abbrev Byte := Fin 256

/-- A `std::string`: a finite sequence of bytes. -/
abbrev Str := List Byte

/-- Bytes of an ASCII string literal of the source. -/
def lit (s : String) : Str := s.toList.map (fun c => Fin.ofNat c.toNat)

/-- The byte written by `std::endl`. -/
def endl : Str := [10]

/-- Conversion `char -> int` at the call `tolower(c)` (plain `char` is signed on the
target; for an unsigned `char` the conversion is the identity, with the same final result). -/
def char_to_int (c : Byte) : Int := if c.val < 128 then (c.val : Int) else (c.val : Int) - 256

/-- Conversion `int -> char` of the value stored back by `std::transform`. -/
def int_to_char (i : Int) : Byte := Fin.ofNat (i % 256).toNat

/-- `int tolower(int)` of `<cctype>` in the "C" locale (the program never calls
`setlocale`): only `'A'..'Z'` are changed. -/
def tolower (c : Int) : Int := if 65 ≤ c ∧ c ≤ 90 then c + 32 else c

/-- `std::transform(s.begin(), s.end(), s.begin(), &tolower)` (lines 93 and 99). -/
def transform_tolower (s : Str) : Str := s.map (fun c => int_to_char (tolower (char_to_int c)))

/-- `std::string::find(pattern)` scanning `line` from the left; `pos` is the offset of
the first byte of `line` in the whole string.  `none` is `std::string::npos`. -/
def find_from (pattern : Str) : Str → Nat → Option Nat
  | [], pos => if pattern.isPrefixOf [] then some pos else none
  | c :: cs, pos =>
    if pattern.isPrefixOf (c :: cs) then some pos else find_from pattern cs (pos + 1)

/-- `line.find(pattern)` (line 102). -/
def find (line pattern : Str) : Option Nat := find_from pattern line 0

/-- `s.substr(pos, n)`: throws `std::out_of_range` (`none`) when `pos > s.size()`. -/
def substr (s : Str) (pos n : Nat) : Option Str :=
  if pos ≤ s.length then some ((s.drop pos).take n) else none

/-- `s.substr(pos)`, the count defaulting to `npos`. -/
def substr_from (s : Str) (pos : Nat) : Option Str :=
  if pos ≤ s.length then some (s.drop pos) else none

/-! ## `print_matches` -/

/-- The escape sequence `"\033[1;31m"` of line 108. -/
def bold_red : Str := lit "\x1b[1;31m"

/-- The escape sequence `"\033[0m"` of line 108. -/
def reset : Str := lit "\x1b[0m"

/-- Lines 106-112: the chunk written to `std::cout` for a line in which `find`
returned `pos`.  `line` and `pattern` are the loop's variables at that point. -/
def emit (colorize : Bool) (pfx : Str) (line pattern : Str) (pos : Nat) : Option Str :=
  if colorize then do
    let a ← substr line 0 pos
    let m ← substr line pos pattern.length
    let b ← substr_from line (pos + pattern.length)
    pure (pfx ++ a ++ bold_red ++ m ++ reset ++ b ++ endl)
  else
    pure (pfx ++ line ++ endl)

/-- Lines 97-114: the `for` loop over `input`; `pattern` is the (possibly lowered)
pattern of lines 92-94.  The loop variable `line` is a copy, lowered in place when
`ignore_case` is set, and it is this copy that is searched and written. -/
def print_matches_loop (colorize : Bool) (pfx pattern : Str) (ignore_case : Bool) :
    List Str → Option (List Str)
  | [] => some []
  | line :: rest =>
    let line := if ignore_case then transform_tolower line else line
    match find line pattern with
    | none => print_matches_loop colorize pfx pattern ignore_case rest
    | some pos => do
      let chunk ← emit colorize pfx line pattern pos
      let out ← print_matches_loop colorize pfx pattern ignore_case rest
      pure (chunk :: out)

/-- `print_matches(prefix, input, pattern, ignore_case)` (lines 91-115), the parameter
`prefix` being named `pfx` here; `colorize` is
the value of `is_stdout_terminal()` read at line 96.  The result is the list of chunks
written to `std::cout`, or `none` if an exception escapes. -/
def print_matches (colorize : Bool) (pfx : Str) (input : List Str) (pattern : Str)
    (ignore_case : Bool) : Option (List Str) :=
  let pattern := if ignore_case then transform_tolower pattern else pattern
  print_matches_loop colorize pfx pattern ignore_case input

/-- The value `pos` takes at line 102 when `print_matches(_, _, pattern, ignore_case)`
handles `line`: with `ignore_case` the pattern (line 93) and the copy of the line
(line 99) are lowered before the search.  `none` is `npos`: the line is skipped. -/
def match_pos (line pattern : Str) (ignore_case : Bool) : Option Nat :=
  find (if ignore_case then transform_tolower line else line)
    (if ignore_case then transform_tolower pattern else pattern)

/-- The fold of the specification on one byte: `'A'..'Z'` go to `'a'..'z'`, every other
byte is unchanged. -/
def fold_byte (b : Byte) : Byte := if 65 ≤ b.val ∧ b.val ≤ 90 then Fin.ofNat (b.val + 32) else b

/-- The fold of the specification, applied byte-wise. -/
def fold (s : Str) : Str := s.map fold_byte

/-- Lines 92-94 and 98-100: a string after the lowering made when `ignore_case` is set;
applied to the pattern once and to the copy of each line. -/
def lowered (ignore_case : Bool) (s : Str) : Str :=
  if ignore_case then transform_tolower s else s

/-! ## `read_input` -/

/-- `std::getline(in, line)` on a stream whose unread content is the argument: `none`
when the call fails (end of file reached without extracting anything); otherwise the
line read, the delimiter `'\n'` being extracted and dropped, and the content left. -/
def getline : Str → Option (Str × Str)
  | [] => none
  | c :: cs => some ((c :: cs).takeWhile (· ≠ 10), ((c :: cs).dropWhile (· ≠ 10)).drop 1)

/-- The `while` loop of `read_input` (lines 81-83): `stream` is the unread content,
`input` the vector built so far.  The first argument bounds the number of iterations;
`read_input` passes a bound that is never reached (`read_input_loop_fuel`). -/
def read_input_loop : Nat → Str → List Str → List Str
  | 0, _, input => input
  | n + 1, stream, input =>
    match getline stream with
    | none => input
    | some (line, rest) => read_input_loop n rest (input ++ [line])

/-- `read_input(in)` (lines 78-85), `stream` being everything `in` can deliver. -/
def read_input (stream : Str) : List Str := read_input_loop (stream.length + 1) stream []

/-! ## `getopt_long` -/

/-- `struct option` of `<getopt.h>`; `flag` is `nullptr` in every entry and is left out.
A null `name` is `none`. -/
structure option where
  name : Option Str
  has_arg : Nat
  val : Nat
deriving DecidableEq

/-- `no_argument` of `<getopt.h>`. -/
def no_argument : Nat := 0

/-- `required_argument` of `<getopt.h>`. -/
def required_argument : Nat := 1

/-- `Options::long_options_` (lines 70-75). -/
def long_options_ : List option :=
  [⟨some (lit "help"), no_argument, 104⟩,
   ⟨some (lit "ignore-case"), no_argument, 105⟩,
   ⟨some (lit "recursive"), required_argument, 114⟩,
   ⟨none, 0, 0⟩]

/-- The short-option string `"hir:"` passed to `getopt_long` (line 20). -/
def optstring : Str := lit "hir:"

/-- Value of one call of `getopt_long` other than `-1`: the value returned and `optarg`
(empty when the option has no argument). -/
structure GetoptReturn where
  c : Nat
  optarg : Str
deriving DecidableEq

/-- What one element of `argv` contributes to the scan: the values returned from it, and,
when it ends in an option that requires an argument given as the next element, that option. -/
structure Decoded where
  returns : List GetoptReturn
  pending : Option Nat
deriving DecidableEq

/-- Lookup of a short option character in `optstring`, as `getopt_long` does it
(`strchr`, with `':'` and `';'` never valid): `none` for an invalid option, otherwise
whether the option requires an argument (the character is followed by `':'`). -/
def short_option (c : Byte) : Option Bool :=
  if c = 58 ∨ c = 59 then none
  else match optstring.dropWhile (· ≠ c) with
    | [] => none
    | _ :: t => some (t.head? = some 58)

/-- Scan of the characters of an element `-abc` after the dash: an invalid character
returns `'?'`, an option requiring an argument takes the rest of the element as its
argument, or is left pending when nothing follows it. -/
def decode_short : Str → Decoded
  | [] => ⟨[], none⟩
  | c :: cs =>
    match short_option c with
    | none => ⟨⟨63, []⟩ :: (decode_short cs).returns, (decode_short cs).pending⟩
    | some false => ⟨⟨c.val, []⟩ :: (decode_short cs).returns, (decode_short cs).pending⟩
    | some true => if cs = [] then ⟨[], some c.val⟩ else ⟨[⟨c.val, cs⟩], none⟩

/-- The entry of `longopts` selected by `name`: an exact match, or else the only entry
that `name` abbreviates (several candidates that differ are ambiguous). -/
def find_long_option (longopts : List option) (name : Str) : Option option :=
  let named := longopts.takeWhile (fun p => p.name.isSome)
  match named.find? (fun p => p.name = some name) with
  | some p => some p
  | none =>
    match named.filter (fun p => name.isPrefixOf (p.name.getD [])) with
    | [] => none
    | p :: qs => if qs.all (fun q => q.has_arg = p.has_arg ∧ q.val = p.val) then some p else none

/-- Scan of an element `--name` or `--name=value` after the two dashes. -/
def decode_long (body : Str) : Decoded :=
  let name := body.takeWhile (· ≠ 61)
  match find_long_option long_options_ name with
  | none => ⟨[⟨63, []⟩], none⟩
  | some p =>
    if name.length < body.length then
      if p.has_arg ≠ 0 then ⟨[⟨p.val, body.drop (name.length + 1)⟩], none⟩
      else ⟨[⟨63, []⟩], none⟩
    else if p.has_arg = 1 then ⟨[], some p.val⟩
    else ⟨[⟨p.val, []⟩], none⟩

/-- Kind of an element of `argv` met by the scan. -/
inductive Element
  | terminator
  | nonoption
  | options (d : Decoded)
deriving DecidableEq

/-- How `getopt_long` takes the element `a`: `--` ends the options; an element that does
not start with a dash, or is a lone dash, is not an option; `--x..` is a long option and
`-x..` a group of short options. -/
def classify (a : Str) : Element :=
  if a = lit "--" then .terminator
  else
    match a with
    | 45 :: c :: cs => .options (if c = 45 then decode_long cs else decode_short (c :: cs))
    | _ => .nonoption

/-- All the calls `getopt_long(argc, argv, "hir:", long_options_, ..)` the loop of
`read_args` can make, on the arguments after `argv[0]`: the values returned before `-1`,
in order, and the elements `argv[optind..argc)` left once `-1` is returned.  GNU
behaviour with `POSIXLY_CORRECT` unset: elements that are not options are skipped and
moved behind the options, `--` ends the options, a pending option takes the next
element, whatever it is, as its argument and returns `'?'` when there is none.  The
diagnostics `getopt_long` itself writes to standard error are not part of the model. -/
def getopt_long : List Str → List GetoptReturn × List Str
  | [] => ([], [])
  | a :: rest =>
    match classify a with
    | .terminator => ([], rest)
    | .nonoption => ((getopt_long rest).1, a :: (getopt_long rest).2)
    | .options d =>
      match d.pending with
      | none => (d.returns ++ (getopt_long rest).1, (getopt_long rest).2)
      | some v =>
        match rest with
        | [] => (d.returns ++ [⟨63, []⟩], [])
        | b :: rest1 => (d.returns ++ ⟨v, b⟩ :: (getopt_long rest1).1, (getopt_long rest1).2)

/-! ## `Options::read_args` -/

/-- `struct Options` (lines 10-14). -/
structure Options where
  ignore_case : Bool
  help_only : Bool
  pattern : Str
  scanning_directory : Str
deriving DecidableEq

/-- Outcome of `read_args`: the pointer returned (`none` for the null pointer) and the
chunks written to `std::cout` and `std::cerr`. -/
structure ReadArgs where
  ret : Option Options
  cout : List Str
  cerr : List Str
deriving DecidableEq

/-- `Options::print_help()` (lines 55-68): the chunks written to `std::cout`. -/
def print_help : List Str :=
  [lit "USAGE: rapid-grep [OPTIONS]... FILE" ++ endl,
   lit "Print lines that match pattern." ++ endl,
   endl,
   lit "Options:" ++ endl] ++
  (long_options_.filter (fun opt => opt.val ≠ 0)).map (fun opt =>
    lit " -" ++ [Fin.ofNat opt.val] ++ lit ", --" ++ opt.name.getD [] ++
      (if opt.has_arg = required_argument then lit " OPTION" else []) ++ endl)

/-- The `for (;;)` loop of `read_args` (lines 18-39) over the values `getopt_long`
returns; `none` when the loop is left by `break`, otherwise the outcome returned from
inside the loop. -/
def read_args_loop (opts : Options) : List GetoptReturn → Options × Option ReadArgs
  | [] => (opts, none)
  | r :: rs =>
    if r.c = 104 then
      ({ opts with help_only := true },
        some ⟨some { opts with help_only := true }, print_help, []⟩)
    else if r.c = 105 then read_args_loop { opts with ignore_case := true } rs
    else if r.c = 114 then read_args_loop { opts with scanning_directory := r.optarg } rs
    else (opts, some ⟨none, print_help, []⟩)

/-- `Options::read_args(argc, argv)` (lines 16-52), `argv0` being `argv[0]` and `args`
the elements after it.  The static `opts` starts zero-initialised. -/
def read_args (argv0 : Str) (args : List Str) : ReadArgs :=
  let scan := getopt_long args
  match read_args_loop ⟨false, false, [], []⟩ scan.1 with
  | (_, some r) => r
  | (opts, none) =>
    match scan.2 with
    | [] => ⟨none, print_help, [argv0 ++ lit ": pattern file is required" ++ endl]⟩
    | [p] => ⟨some { opts with pattern := p }, [], []⟩
    | _ :: _ :: _ =>
      ⟨none, print_help, [argv0 ++ lit ": too many pattern, expected only one" ++ endl]⟩

/-! ## `main` -/

/-- An entry produced by `std::filesystem::recursive_directory_iterator`, with what
`read_input` gets from an `std::ifstream` on it (nothing if it cannot be opened). -/
structure directory_entry where
  path : Str
  is_regular_file : Bool
  content : Str
deriving DecidableEq

/-- A directory walk: the entries visited, in iteration order, and whether the walk
ended with a `filesystem_error` thrown after them rather than normally. -/
structure DirWalk where
  entries : List directory_entry
  throws : Bool
deriving DecidableEq

/-- The environment of a run. -/
structure World where
  /-- Value of `isatty(1)`. -/
  isatty : Bool
  /-- Content of standard input. -/
  cin : Str
  /-- The walk `recursive_directory_iterator` makes from a directory. -/
  walk : Str → DirWalk

/-- Outcome of `main`: the value returned (`none` when an exception ends the program
instead) and what was written. -/
structure Exit where
  status : Option Nat
  cout : List Str
  cerr : List Str
deriving DecidableEq

/-- `is_stdout_terminal()` (lines 87-89). -/
def is_stdout_terminal (w : World) : Bool := w.isatty

/-- Lines 134-139: the prefix built for the file at `path`. -/
def prefix_of (w : World) (path : Str) : Str :=
  if is_stdout_terminal w then lit "\x1b[0;35m" ++ path ++ lit "\x1b[0m\x1b[0;36m:\x1b[0m"
  else path

/-- Lines 130-142: the loop over the directory entries; `none` when `print_matches`
throws. -/
def scan_entries (w : World) (options : Options) : List directory_entry → Option (List Str)
  | [] => some []
  | p :: ps =>
    if p.is_regular_file then do
      let lines := read_input p.content
      let out ← print_matches (is_stdout_terminal w) (prefix_of w p.path) lines
        options.pattern options.ignore_case
      let more ← scan_entries w options ps
      pure (out ++ more)
    else scan_entries w options ps

/-- `main(argc, argv)` (lines 117-146). -/
def main (w : World) (argv0 : Str) (args : List Str) : Exit :=
  let r := read_args argv0 args
  match r.ret with
  | none => ⟨some 1, r.cout, r.cerr⟩
  | some options =>
    if options.help_only then ⟨some 0, r.cout, r.cerr⟩
    else if options.scanning_directory.isEmpty then
      let lines := read_input w.cin
      match print_matches (is_stdout_terminal w) [] lines options.pattern options.ignore_case with
      | none => ⟨none, r.cout, r.cerr⟩
      | some out => ⟨some 0, r.cout ++ out, r.cerr⟩
    else
      match scan_entries w options (w.walk options.scanning_directory).entries with
      | none => ⟨none, r.cout, r.cerr⟩
      | some out =>
        ⟨if (w.walk options.scanning_directory).throws then none else some 0, r.cout ++ out, r.cerr⟩

/-! ## Helper lemmas -/

theorem isPrefixOf_iff (p l : Str) : p.isPrefixOf l = true ↔ p <+: l := by
  simp

theorem find_from_eq_some_iff (p : Str) (l : Str) (k pos : Nat) :
    find_from p l k = some pos ↔
      ∃ i, pos = k + i ∧ i ≤ l.length ∧ p <+: l.drop i ∧ ∀ j, j < i → ¬ p <+: l.drop j := by
  induction l generalizing k with
  | nil =>
    simp only [find_from, isPrefixOf_iff, List.length_nil, Nat.le_zero, List.drop_nil]
    constructor
    · intro h
      split at h
      · rename_i hp
        exact ⟨0, by simpa using h.symm, rfl, hp, by simp⟩
      · simp at h
    · rintro ⟨i, rfl, rfl, hp, _⟩
      simp [hp]
  | cons c cs ih =>
    simp only [find_from, isPrefixOf_iff]
    by_cases hp : p <+: c :: cs
    · simp only [hp, if_true, Option.some.injEq]
      constructor
      · rintro rfl
        exact ⟨0, rfl, Nat.zero_le _, by simpa using hp, by simp⟩
      · rintro ⟨i, rfl, _, _, hmin⟩
        rcases Nat.eq_zero_or_pos i with h0 | h0
        · simp [h0]
        · exact absurd (by simpa using hp) (hmin 0 h0)
    · simp only [hp, if_false, ih]
      constructor
      · rintro ⟨i, rfl, hi, hpi, hmin⟩
        refine ⟨i + 1, by omega, by simpa using hi, by simpa using hpi, ?_⟩
        intro j hj
        cases j with
        | zero => simpa using hp
        | succ j => simpa using hmin j (by omega)
      · rintro ⟨i, rfl, hi, hpi, hmin⟩
        cases i with
        | zero => exact absurd (by simpa using hpi) hp
        | succ i =>
          refine ⟨i, by omega, by simpa using hi, by simpa using hpi, ?_⟩
          intro j hj
          simpa using hmin (j + 1) (by omega)


theorem find_from_eq_none_iff (p : Str) (l : Str) (k : Nat) :
    find_from p l k = none ↔ ∀ i, i ≤ l.length → ¬ p <+: l.drop i := by
  induction l generalizing k with
  | nil =>
    simp only [find_from, isPrefixOf_iff, List.length_nil, Nat.le_zero, List.drop_nil]
    constructor
    · intro h i _
      split at h
      · simp at h
      · assumption
    · intro h
      simp [h 0 rfl]
  | cons c cs ih =>
    simp only [find_from, isPrefixOf_iff]
    by_cases hp : p <+: c :: cs
    · simp only [hp, if_true]
      constructor
      · intro h
        simp at h
      · intro h
        exact absurd (by simpa using hp) (h 0 (Nat.zero_le _))
    · simp only [hp, if_false, ih]
      constructor
      · intro h i hi
        cases i with
        | zero => simpa using hp
        | succ i => simpa using h i (by simpa using hi)
      · intro h i hi
        simpa using h (i + 1) (by simpa using hi)

/-- Occurrence of `p` in `l` at offset `i`, in terms of the slice `l[i, i+|p|)`. -/
theorem prefix_drop_iff (p l : Str) (i : Nat) :
    (i ≤ l.length ∧ p <+: l.drop i) ↔ (i + p.length ≤ l.length ∧ (l.drop i).take p.length = p) := by
  constructor
  · rintro ⟨hi, hp⟩
    have hlen := hp.length_le
    simp only [List.length_drop] at hlen
    exact ⟨by omega, (List.prefix_iff_eq_take.mp hp).symm⟩
  · rintro ⟨hi, hp⟩
    exact ⟨by omega, List.prefix_iff_eq_take.mpr hp.symm⟩

theorem take_drop_ne_of_not_prefix (p l : Str) (j : Nat) (h : ¬ p <+: l.drop j) :
    (l.drop j).take p.length ≠ p := by
  intro hp
  exact h (List.prefix_iff_eq_take.mpr hp.symm)

/-- Specification of `std::string::find`: the value is the lowest offset at which the
pattern occurs. -/
theorem find_eq_some_iff (l p : Str) (pos : Nat) :
    find l p = some pos ↔
      pos + p.length ≤ l.length ∧ (l.drop pos).take p.length = p ∧
        ∀ j, j < pos → (l.drop j).take p.length ≠ p := by
  unfold find
  rw [find_from_eq_some_iff]
  constructor
  · rintro ⟨i, hi, hle, hp, hmin⟩
    simp only [Nat.zero_add] at hi
    subst hi
    have h := (prefix_drop_iff p l pos).mp ⟨hle, hp⟩
    exact ⟨h.1, h.2, fun j hj => take_drop_ne_of_not_prefix p l j (hmin j hj)⟩
  · rintro ⟨hle, hp, hmin⟩
    have h := (prefix_drop_iff p l pos).mpr ⟨hle, hp⟩
    refine ⟨pos, by simp, h.1, h.2, ?_⟩
    intro j hj hpj
    exact hmin j hj (List.prefix_iff_eq_take.mp hpj).symm

theorem infix_iff_exists_prefix_drop (p l : Str) :
    p <:+: l ↔ ∃ i, i ≤ l.length ∧ p <+: l.drop i := by
  constructor
  · rintro ⟨s, t, rfl⟩
    refine ⟨s.length, by simp, ?_⟩
    simp [List.append_assoc]
  · rintro ⟨i, _, hp⟩
    exact hp.isInfix.trans (List.drop_suffix i l).isInfix

/-- `find` succeeds exactly on the lines that contain the pattern. -/
theorem find_isSome_iff (l p : Str) : (∃ pos, find l p = some pos) ↔ p <:+: l := by
  rw [infix_iff_exists_prefix_drop]
  constructor
  · rintro ⟨pos, h⟩
    obtain ⟨i, _, hle, hp, _⟩ := (find_from_eq_some_iff p l 0 pos).mp h
    exact ⟨i, hle, hp⟩
  · rintro ⟨i, hle, hp⟩
    cases h : find l p with
    | some pos => exact ⟨pos, rfl⟩
    | none => exact absurd hp ((find_from_eq_none_iff p l 0).mp h i hle)

theorem find_eq_none_iff (l p : Str) : find l p = none ↔ ¬ p <:+: l := by
  rw [← find_isSome_iff]
  cases h : find l p <;> simp

theorem find_bound (l p : Str) (pos : Nat) (h : find l p = some pos) :
    pos + p.length ≤ l.length :=
  ((find_eq_some_iff l p pos).mp h).1

/-- With the slices in range, `emit` writes the chunk of lines 107-109 or of line 111. -/
theorem emit_eq (colorize : Bool) (pfx line pattern : Str) (pos : Nat)
    (h : pos + pattern.length ≤ line.length) :
    emit colorize pfx line pattern pos =
      some (if colorize then
          pfx ++ line.take pos ++ bold_red ++ (line.drop pos).take pattern.length ++ reset ++
            line.drop (pos + pattern.length) ++ endl
        else pfx ++ line ++ endl) := by
  have h1 : pos ≤ line.length := by omega
  cases colorize <;> simp [emit, substr, substr_from, h, h1]

theorem print_matches_loop_cons_none (colorize : Bool) (pfx pattern : Str) (ic : Bool)
    (line : Str) (rest : List Str)
    (h : find (if ic then transform_tolower line else line) pattern = none) :
    print_matches_loop colorize pfx pattern ic (line :: rest) =
      print_matches_loop colorize pfx pattern ic rest := by
  simp only [print_matches_loop]
  rw [h]

theorem print_matches_loop_cons_some (colorize : Bool) (pfx pattern : Str) (ic : Bool)
    (line : Str) (rest : List Str) (pos : Nat)
    (h : find (if ic then transform_tolower line else line) pattern = some pos) :
    print_matches_loop colorize pfx pattern ic (line :: rest) =
      (emit colorize pfx (if ic then transform_tolower line else line) pattern pos).bind
        (fun chunk => (print_matches_loop colorize pfx pattern ic rest).bind
          (fun out => some (chunk :: out))) := by
  simp only [print_matches_loop]
  rw [h]
  rfl

/-- The chunk `emit` writes, as a total function of the searched line and the offset. -/
theorem emit_getD (colorize : Bool) (pfx line pattern : Str) (pos : Nat)
    (h : pos + pattern.length ≤ line.length) :
    (emit colorize pfx line pattern pos).getD [] =
      pfx ++ (emit colorize [] line pattern pos).getD [] := by
  rw [emit_eq colorize pfx line pattern pos h, emit_eq colorize [] line pattern pos h]
  cases colorize <;> simp

/-- The loop never throws: it writes, in order, one chunk for each line in which `find`
succeeds. -/
theorem print_matches_loop_eq (colorize : Bool) (pfx pattern : Str) (ic : Bool)
    (input : List Str) :
    print_matches_loop colorize pfx pattern ic input =
      some ((input.filter (fun L =>
          (find (if ic then transform_tolower L else L) pattern).isSome)).map (fun L =>
          pfx ++ (emit colorize [] (if ic then transform_tolower L else L) pattern
            ((find (if ic then transform_tolower L else L) pattern).getD 0)).getD [])) := by
  induction input with
  | nil => rfl
  | cons L rest ih =>
    cases h : find (if ic then transform_tolower L else L) pattern with
    | none =>
      rw [print_matches_loop_cons_none colorize pfx pattern ic L rest h, ih]
      simp [List.filter_cons, h]
    | some pos =>
      have hb := find_bound _ _ pos h
      rw [print_matches_loop_cons_some colorize pfx pattern ic L rest pos h, ih]
      have he := emit_getD colorize pfx _ _ pos hb
      obtain ⟨chunk, hc⟩ : ∃ chunk, emit colorize pfx
          (if ic then transform_tolower L else L) pattern pos = some chunk :=
        ⟨_, emit_eq colorize pfx _ _ pos hb⟩
      rw [hc] at he ⊢
      simp only [Option.getD_some] at he
      simp [List.filter_cons, h, ← he]

/-- `print_matches` as an order-preserving filter of its input. -/
theorem print_matches_eq (colorize : Bool) (pfx : Str) (input : List Str) (P : Str) (ic : Bool) :
    print_matches colorize pfx input P ic =
      some ((input.filter (fun L => (match_pos L P ic).isSome)).map (fun L =>
        pfx ++ (emit colorize [] (if ic then transform_tolower L else L)
          (if ic then transform_tolower P else P) ((match_pos L P ic).getD 0)).getD [])) := by
  unfold print_matches match_pos
  exact print_matches_loop_eq colorize pfx _ ic input

theorem print_matches_total (colorize : Bool) (pfx : Str) (input : List Str) (P : Str)
    (ic : Bool) : ∃ out, print_matches colorize pfx input P ic = some out :=
  ⟨_, print_matches_eq colorize pfx input P ic⟩

/-- The prefix is written in front of each chunk and nothing else depends on it. -/
theorem print_matches_prefixed (colorize : Bool) (pfx : Str) (input : List Str) (P : Str)
    (ic : Bool) :
    print_matches colorize pfx input P ic =
      (print_matches colorize [] input P ic).map (fun out => out.map (fun chunk => pfx ++ chunk)) := by
  rw [print_matches_eq colorize pfx, print_matches_eq colorize []]
  simp [List.map_map]

/-- The directory loop never throws: it writes what `print_matches` writes for each
regular file, in iteration order. -/
theorem scan_entries_eq (w : World) (options : Options) (entries : List directory_entry) :
    scan_entries w options entries =
      some ((entries.filter (fun p => p.is_regular_file)).flatMap (fun p =>
        (print_matches w.isatty (prefix_of w p.path) (read_input p.content)
          options.pattern options.ignore_case).getD [])) := by
  induction entries with
  | nil => rfl
  | cons p ps ih =>
    unfold scan_entries
    cases hp : p.is_regular_file with
    | false => simp [ih, List.filter_cons, hp]
    | true =>
      obtain ⟨out, hout⟩ := print_matches_total w.isatty (prefix_of w p.path)
        (read_input p.content) options.pattern options.ignore_case
      simp [ih, List.filter_cons, hp, is_stdout_terminal, hout]

/-! ### `read_args` -/

/-- Past options that are `-i` or `-r` the loop just carries on with the updated `opts`. -/
theorem read_args_loop_append (o : Options) (pre rest : List GetoptReturn)
    (h : ∀ y ∈ pre, y.c = 105 ∨ y.c = 114) :
    read_args_loop o (pre ++ rest) = read_args_loop (read_args_loop o pre).1 rest := by
  induction pre generalizing o with
  | nil => rfl
  | cons y ys ih =>
    have hy := h y (List.mem_cons_self y ys)
    have hys : ∀ z ∈ ys, z.c = 105 ∨ z.c = 114 := fun z hz => h z (List.mem_cons_of_mem y hz)
    rcases hy with hy | hy
    · simp [read_args_loop, hy, ih _ hys]
    · simp [read_args_loop, hy, ih _ hys]

/-- When `getopt_long` returns only `'i'` and `'r'`, the loop ends by `break` with the
flag set if `'i'` was returned and the directory of the last `'r'`. -/
theorem read_args_loop_recognised (o : Options) (trace : List GetoptReturn)
    (h : ∀ r ∈ trace, r.c = 105 ∨ r.c = 114) :
    read_args_loop o trace =
      ({ o with
          ignore_case := o.ignore_case || trace.any (fun r => decide (r.c = 105)),
          scanning_directory :=
            ((trace.filter (fun r => decide (r.c = 114))).map (fun r => r.optarg)).getLast?.getD
              o.scanning_directory }, none) := by
  induction trace generalizing o with
  | nil => simp [read_args_loop]
  | cons y ys ih =>
    have hy := h y (List.mem_cons_self y ys)
    have hys : ∀ z ∈ ys, z.c = 105 ∨ z.c = 114 := fun z hz => h z (List.mem_cons_of_mem y hz)
    rcases hy with hy | hy
    · simp [read_args_loop, hy, ih _ hys, List.filter_cons]
    · simp [read_args_loop, hy, ih _ hys, List.filter_cons, List.getLast?_cons]

/-- A sequence of returned values is all `'i'`/`'r'`, or has a first value that is not. -/
theorem trace_split (trace : List GetoptReturn) :
    (∀ r ∈ trace, r.c = 105 ∨ r.c = 114) ∨
      ∃ pre x post, trace = pre ++ x :: post ∧ (∀ y ∈ pre, y.c = 105 ∨ y.c = 114) ∧
        ¬ (x.c = 105 ∨ x.c = 114) := by
  induction trace with
  | nil => left; simp
  | cons y ys ih =>
    by_cases hy : y.c = 105 ∨ y.c = 114
    · rcases ih with ih | ⟨pre, x, post, rfl, hpre, hx⟩
      · left
        intro r hr
        rcases List.mem_cons.mp hr with rfl | hr
        · exact hy
        · exact ih r hr
      · right
        refine ⟨y :: pre, x, post, rfl, ?_, hx⟩
        intro r hr
        rcases List.mem_cons.mp hr with rfl | hr
        · exact hy
        · exact hpre r hr
    · right
      exact ⟨[], y, ys, rfl, by simp, hy⟩

/-- The first value that is not `'i'`/`'r'` is `'h'`: help is printed and `&opts` returned. -/
theorem read_args_help (argv0 : Str) (args : List Str) (pre post : List GetoptReturn)
    (x : GetoptReturn) (h : (getopt_long args).1 = pre ++ x :: post)
    (hpre : ∀ y ∈ pre, y.c = 105 ∨ y.c = 114) (hx : x.c = 104) :
    read_args argv0 args =
      ⟨some { (read_args_loop ⟨false, false, [], []⟩ pre).1 with help_only := true },
        print_help, []⟩ := by
  unfold read_args
  simp only [h, read_args_loop_append _ pre (x :: post) hpre]
  simp [read_args_loop, hx]

/-- The first value that is not `'i'`/`'r'` is not `'h'` either: the `default` case. -/
theorem read_args_error (argv0 : Str) (args : List Str) (pre post : List GetoptReturn)
    (x : GetoptReturn) (h : (getopt_long args).1 = pre ++ x :: post)
    (hpre : ∀ y ∈ pre, y.c = 105 ∨ y.c = 114)
    (hx : x.c ≠ 104 ∧ x.c ≠ 105 ∧ x.c ≠ 114) :
    read_args argv0 args = ⟨none, print_help, []⟩ := by
  unfold read_args
  simp only [h, read_args_loop_append _ pre (x :: post) hpre]
  simp [read_args_loop, hx.1, hx.2.1, hx.2.2]

/-- Only `'i'` and `'r'` are returned: the outcome is decided by `argc - optind`. -/
theorem read_args_recognised (argv0 : Str) (args : List Str)
    (h : ∀ r ∈ (getopt_long args).1, r.c = 105 ∨ r.c = 114) :
    read_args argv0 args =
      match (getopt_long args).2 with
      | [] => ⟨none, print_help, [argv0 ++ lit ": pattern file is required" ++ endl]⟩
      | [p] =>
        ⟨some ⟨(getopt_long args).1.any (fun r => decide (r.c = 105)), false, p,
          (((getopt_long args).1.filter (fun r => decide (r.c = 114))).map
            (fun r => r.optarg)).getLast?.getD []⟩, [], []⟩
      | _ :: _ :: _ =>
        ⟨none, print_help, [argv0 ++ lit ": too many pattern, expected only one" ++ endl]⟩ := by
  unfold read_args
  simp only [read_args_loop_recognised _ _ h]
  rcases (getopt_long args).2 with _ | ⟨p, _ | ⟨q, t⟩⟩ <;> simp

/-- Shape of every outcome of `read_args`. -/
theorem read_args_cases (argv0 : Str) (args : List Str) :
    ((read_args argv0 args).ret = none ∧ (read_args argv0 args).cout = print_help) ∨
    (∃ o, (read_args argv0 args).ret = some o ∧ o.help_only = true ∧
      (read_args argv0 args).cout = print_help ∧ (read_args argv0 args).cerr = []) ∨
    (∃ o, (read_args argv0 args).ret = some o ∧ o.help_only = false ∧
      (read_args argv0 args).cout = [] ∧ (read_args argv0 args).cerr = []) := by
  rcases trace_split (getopt_long args).1 with h | ⟨pre, x, post, h, hpre, hx⟩
  · rw [read_args_recognised argv0 args h]
    rcases (getopt_long args).2 with _ | ⟨p, _ | ⟨q, t⟩⟩ <;> simp
  · by_cases hh : x.c = 104
    · rw [read_args_help argv0 args pre post x h hpre hh]
      simp
    · rw [read_args_error argv0 args pre post x h hpre ⟨hh, by tauto, by tauto⟩]
      simp

/-! ### `read_input` -/

theorem read_input_loop_acc (n : Nat) (s : Str) (acc : List Str) :
    read_input_loop n s acc = acc ++ read_input_loop n s [] := by
  induction n generalizing s acc with
  | zero => simp [read_input_loop]
  | succ n ih =>
    unfold read_input_loop
    cases getline s with
    | none => simp
    | some lr =>
      obtain ⟨line, rest⟩ := lr
      simp only []
      rw [ih rest (acc ++ [line]), ih rest ([] ++ [line])]
      simp

theorem getline_length (s line rest : Str) (h : getline s = some (line, rest)) :
    rest.length < s.length := by
  cases s with
  | nil => simp [getline] at h
  | cons c cs =>
    simp only [getline, Option.some.injEq, Prod.mk.injEq] at h
    rw [← h.2]
    have h1 := (List.dropWhile_suffix (fun b : Byte => decide (b ≠ 10)) (l := c :: cs)).length_le
    simp only [List.length_drop, List.length_cons] at h1 ⊢
    omega

/-- The bound `read_input` gives to its loop is never reached: any larger bound gives the
same vector. -/
theorem read_input_loop_fuel (n m : Nat) (s : Str) (hn : s.length < n) (hm : s.length < m) :
    read_input_loop n s [] = read_input_loop m s [] := by
  induction n generalizing m s with
  | zero => omega
  | succ n ih =>
    cases m with
    | zero => omega
    | succ m =>
      unfold read_input_loop
      cases h : getline s with
      | none => rfl
      | some lr =>
        obtain ⟨line, rest⟩ := lr
        have hl := getline_length s line rest h
        simp only []
        rw [read_input_loop_acc n, read_input_loop_acc m, ih m rest (by omega) (by omega)]

theorem read_input_nil : read_input [] = [] := rfl

/-- One iteration of the loop of `read_input` on a stream that is not at its end. -/
theorem read_input_cons (c : Byte) (cs : Str) :
    read_input (c :: cs) =
      (c :: cs).takeWhile (fun b => decide (b ≠ 10)) ::
        read_input (((c :: cs).dropWhile (fun b => decide (b ≠ 10))).drop 1) := by
  have hl := getline_length (c :: cs) _ _ rfl
  unfold read_input
  rw [List.length_cons]
  conv => lhs; unfold read_input_loop
  simp only [getline]
  rw [read_input_loop_acc]
  simp only [List.nil_append, List.singleton_append, List.cons.injEq, true_and]
  exact read_input_loop_fuel _ _ _ (by simpa using hl) (by omega)

theorem takeWhile_append_cons_of_neg (p : Byte → Bool) (a : Str) (x : Byte) (b : Str)
    (hx : p x = false) : (a ++ x :: b).takeWhile p = a.takeWhile p := by
  induction a with
  | nil => simp [List.takeWhile, hx]
  | cons y ys ih =>
    simp only [List.cons_append, List.takeWhile_cons, ih]

theorem flatMap_append_sep (sep : Str) (ls : List Str) (h : ls ≠ []) :
    ls.flatMap (fun l => l ++ sep) = sep.intercalate ls ++ sep := by
  induction ls with
  | nil => exact absurd rfl h
  | cons x xs ih =>
    cases xs with
    | nil => simp [List.intercalate]
    | cons y ys =>
      have ih2 := ih (by simp)
      simp only [List.flatMap_cons] at ih2 ⊢
      rw [ih2]
      simp [List.intercalate, List.append_assoc]

/-- The lines of `read_input`: none holds a newline; followed each by a newline they give
back the stream, completed by a final newline when it lacks one; the last one is what
follows the last newline. -/
theorem read_input_spec (s : Str) :
    (∀ l ∈ read_input s, (10 : Byte) ∉ l) ∧
    ((read_input s).flatMap (fun l => l ++ [10]) =
      if s = [] ∨ s.getLast? = some 10 then s else s ++ [10]) ∧
    (s ≠ [] → s.getLast? ≠ some 10 →
      (read_input s).getLast? =
        some ((s.reverse.takeWhile (fun b => decide (b ≠ 10))).reverse)) := by
  generalize hlen : s.length = n
  induction n using Nat.strong_induction_on generalizing s with
  | _ n ih =>
    cases s with
    | nil => simp [read_input_nil]
    | cons c cs =>
      have hsplit := List.takeWhile_append_dropWhile (fun b : Byte => decide (b ≠ 10)) (c :: cs)
      have hline : ∀ x ∈ (c :: cs).takeWhile (fun b : Byte => decide (b ≠ 10)), x ≠ 10 := by
        intro x hx
        simpa using List.mem_takeWhile_imp hx
      have hhead := List.head?_dropWhile_not (fun b : Byte => decide (b ≠ 10)) (c :: cs)
      rw [read_input_cons]
      generalize (c :: cs).takeWhile (fun b : Byte => decide (b ≠ 10)) = line at hsplit hline ⊢
      cases hd : (c :: cs).dropWhile (fun b : Byte => decide (b ≠ 10)) with
      | nil =>
        rw [hd] at hsplit
        simp only [List.append_nil] at hsplit
        have hlast : (c :: cs).getLast? ≠ some 10 := by
          intro hl
          have hm := List.mem_of_getLast?_eq_some hl
          rw [← hsplit] at hm
          exact hline 10 hm rfl
        have hall : (c :: cs).reverse.takeWhile (fun b : Byte => decide (b ≠ 10)) =
            (c :: cs).reverse := by
          rw [List.takeWhile_eq_self_iff]
          intro x hx
          rw [List.mem_reverse, ← hsplit] at hx
          simpa using hline x hx
        refine ⟨?_, ?_, ?_⟩
        · intro l hl
          simp only [List.drop_nil, read_input_nil, List.mem_singleton] at hl
          subst hl
          exact fun hm => hline 10 hm rfl
        · simp [read_input_nil, hlast, hsplit]
        · intro _ _
          rw [hall]
          simp [read_input_nil, hsplit]
      | cons x rest =>
        rw [hd] at hsplit hhead
        simp only [List.head?_cons, decide_eq_false_iff_not, Decidable.not_not] at hhead
        subst hhead
        have hrl : rest.length < n := by
          have := congrArg List.length hsplit
          simp only [List.length_append, List.length_cons] at this hlen
          omega
        obtain ⟨ih1, ih2, ih3⟩ := ih rest.length hrl rest rfl
        simp only [List.drop_succ_cons, List.drop_zero]
        refine ⟨?_, ?_, ?_⟩
        · intro l hl
          rcases List.mem_cons.mp hl with rfl | hl
          · exact fun hm => hline 10 hm rfl
          · exact ih1 l hl
        · rw [List.flatMap_cons, ih2, ← hsplit]
          cases rest with
          | nil => simp
          | cons r rs =>
            have hne : (10 : Byte) :: r :: rs ≠ [] := by simp
            rw [List.getLast?_append_of_ne_nil _ hne, List.getLast?_cons_cons]
            by_cases hl : (r :: rs).getLast? = some 10 <;> simp [hl]
        · intro _ hlast
          rw [← hsplit] at hlast ⊢
          cases rest with
          | nil => simp at hlast
          | cons r rs =>
            have hne : (10 : Byte) :: r :: rs ≠ [] := by simp
            rw [List.getLast?_append_of_ne_nil _ hne, List.getLast?_cons_cons] at hlast
            have h3 := ih3 (by simp) hlast
            have hrne : read_input (r :: rs) ≠ [] := by
              rw [read_input_cons]
              simp
            have hrev : (line ++ 10 :: r :: rs).reverse = (r :: rs).reverse ++ 10 :: line.reverse := by
              simp
            rw [hrev, takeWhile_append_cons_of_neg _ _ _ _ (by simp), ← h3]
            cases hri : read_input (r :: rs) with
            | nil => exact absurd hri hrne
            | cons a as => rw [List.getLast?_cons_cons]

/-! ### Single lines, `main` -/

set_option maxRecDepth 100000 in
theorem tolower_byte_eq_fold_byte :
    ∀ c : Byte, int_to_char (tolower (char_to_int c)) = fold_byte c := by
  decide

theorem transform_tolower_eq_fold (s : Str) : transform_tolower s = fold s := by
  unfold transform_tolower fold
  exact List.map_congr_left (fun c _ => tolower_byte_eq_fold_byte c)

/-- What `print_matches` writes for a single line, in terms of `match_pos`. -/
theorem print_matches_single (colorize : Bool) (pfx L P : Str) (ic : Bool) :
    print_matches colorize pfx [L] P ic =
      match match_pos L P ic with
      | none => some []
      | some pos =>
        (emit colorize pfx (if ic then transform_tolower L else L)
          (if ic then transform_tolower P else P) pos).map (fun chunk => [chunk]) := by
  unfold print_matches match_pos
  cases h : find (if ic then transform_tolower L else L) (if ic then transform_tolower P else P) with
  | none =>
    simp only []
    rw [print_matches_loop_cons_none colorize pfx _ ic L [] h]
    rfl
  | some pos =>
    simp only []
    rw [print_matches_loop_cons_some colorize pfx _ ic L [] pos h]
    cases emit colorize pfx (if ic then transform_tolower L else L)
      (if ic then transform_tolower P else P) pos <;> rfl

/-- A line is written exactly when `match_pos` is not `npos`. -/
theorem print_matches_single_selected (colorize : Bool) (pfx L P : Str) (ic : Bool) :
    (∃ chunk, print_matches colorize pfx [L] P ic = some [chunk]) ↔
      ∃ pos, match_pos L P ic = some pos := by
  rw [print_matches_single]
  cases h : match_pos L P ic with
  | none => simp
  | some pos =>
    have hb := find_bound _ _ pos h
    simp only [emit_eq colorize pfx _ _ pos hb]
    simp

/-- Outcome of `main` once `read_args` has returned a configuration without `help_only`. -/
theorem main_search (w : World) (argv0 : Str) (args : List Str) (options : Options)
    (h : (read_args argv0 args).ret = some options) (hh : options.help_only = false) :
    main w argv0 args =
      if options.scanning_directory = [] then
        ⟨some 0, (print_matches w.isatty [] (read_input w.cin) options.pattern
          options.ignore_case).getD [], []⟩
      else
        ⟨if (w.walk options.scanning_directory).throws then none else some 0,
          ((w.walk options.scanning_directory).entries.filter
            (fun p => p.is_regular_file)).flatMap (fun p =>
              (print_matches w.isatty (prefix_of w p.path) (read_input p.content)
                options.pattern options.ignore_case).getD []), []⟩ := by
  rcases read_args_cases argv0 args with ⟨h0, _⟩ | ⟨o, ho, hho, _⟩ | ⟨o, ho, _, hc, he⟩
  · rw [h0] at h
    cases h
  · rw [ho] at h
    cases h
    rw [hho] at hh
    cases hh
  · rw [ho] at h
    cases h
    obtain ⟨out, hout⟩ := print_matches_total w.isatty [] (read_input w.cin) options.pattern
      options.ignore_case
    unfold main
    simp only [ho, hh, hc, he, scan_entries_eq, is_stdout_terminal, hout]
    by_cases hd : options.scanning_directory = [] <;> simp [hd]

/-- Outcome of `main` when `read_args` fails or help was requested: nothing of the
environment is looked at. -/
theorem main_early (w : World) (argv0 : Str) (args : List Str)
    (h : (read_args argv0 args).ret = none ∨
      ∃ o, (read_args argv0 args).ret = some o ∧ o.help_only = true) :
    main w argv0 args =
      ⟨if (read_args argv0 args).ret = none then some 1 else some 0, print_help,
        (read_args argv0 args).cerr⟩ := by
  rcases read_args_cases argv0 args with ⟨h0, hc⟩ | ⟨o, ho, hho, hc, _⟩ | ⟨o, ho, hho, _⟩
  · unfold main
    simp [h0, hc]
  · unfold main
    simp [ho, hho, hc]
  · rcases h with h | ⟨o1, h1, hh1⟩
    · rw [ho] at h
      cases h
    · rw [ho] at h1
      cases h1
      rw [hho] at hh1
      cases hh1

/-- The ways `read_args` returns null: a value other than `'h'`, `'i'`, `'r'` returned by
`getopt_long` before any `'h'`, or a number of remaining elements other than one. -/
theorem read_args_none_iff (argv0 : Str) (args : List Str) :
    (read_args argv0 args).ret = none ↔
      (∃ pre x post, (getopt_long args).1 = pre ++ x :: post ∧
        (∀ y ∈ pre, y.c = 105 ∨ y.c = 114) ∧ x.c ≠ 104 ∧ x.c ≠ 105 ∧ x.c ≠ 114) ∨
      ((∀ r ∈ (getopt_long args).1, r.c = 105 ∨ r.c = 114) ∧ (getopt_long args).2.length ≠ 1) := by
  constructor
  · intro hn
    rcases trace_split (getopt_long args).1 with h | ⟨pre, x, post, h, hpre, hx⟩
    · right
      refine ⟨h, ?_⟩
      rw [read_args_recognised argv0 args h] at hn
      intro hlen
      rcases hl : (getopt_long args).2 with _ | ⟨p, _ | ⟨q, t⟩⟩
      · simp [hl] at hlen
      · simp [hl] at hn
      · simp [hl] at hlen
    · left
      by_cases hh : x.c = 104
      · rw [read_args_help argv0 args pre post x h hpre hh] at hn
        simp at hn
      · exact ⟨pre, x, post, h, hpre, hh, by tauto, by tauto⟩
  · rintro (⟨pre, x, post, h, hpre, hx⟩ | ⟨h, hlen⟩)
    · rw [read_args_error argv0 args pre post x h hpre hx]
    · rw [read_args_recognised argv0 args h]
      rcases hl : (getopt_long args).2 with _ | ⟨p, _ | ⟨q, t⟩⟩
      · rfl
      · simp [hl] at hlen
      · rfl

set_option maxRecDepth 100000 in
theorem fold_byte_eq_newline : ∀ b : Byte, fold_byte b = 10 → b = 10 := by
  decide

theorem newline_not_mem_lowered (L : Str) (ic : Bool) (h : (10 : Byte) ∉ L) :
    (10 : Byte) ∉ (if ic then transform_tolower L else L) := by
  have hb := fold_byte_eq_newline
  cases ic with
  | false => simpa using h
  | true =>
    simp only [if_true, transform_tolower_eq_fold, fold, List.mem_map, not_exists, not_and]
    intro b hbL hf
    exact h (hb b hf ▸ hbL)

/-- The chunk written for a line without newline, after a prefix without newline, is one
line of output: its only newline byte is its last byte. -/
theorem emit_one_line (colorize : Bool) (pfx line pattern : Str) (pos : Nat)
    (h : pos + pattern.length ≤ line.length) (hp : (10 : Byte) ∉ pfx) (hl : (10 : Byte) ∉ line) :
    ∃ body, (emit colorize pfx line pattern pos).getD [] = body ++ [10] ∧ (10 : Byte) ∉ body := by
  have hr : (10 : Byte) ∉ bold_red := by decide
  have hs : (10 : Byte) ∉ reset := by decide
  rw [emit_eq colorize pfx line pattern pos h]
  cases colorize with
  | false =>
    refine ⟨pfx ++ line, by simp [endl], ?_⟩
    simp [hp, hl]
  | true =>
    refine ⟨pfx ++ line.take pos ++ bold_red ++ (line.drop pos).take pattern.length ++ reset ++
      line.drop (pos + pattern.length), by simp [endl], ?_⟩
    simp only [List.mem_append, not_or]
    exact ⟨⟨⟨⟨⟨hp, fun hm => hl (List.mem_of_mem_take hm)⟩, hr⟩,
      fun hm => hl (List.mem_of_mem_drop (List.mem_of_mem_take hm))⟩, hs⟩,
      fun hm => hl (List.mem_of_mem_drop hm)⟩

/-! ### Renderings -/

theorem lowered_length (ic : Bool) (s : Str) : (lowered ic s).length = s.length := by
  cases ic <;> simp [lowered, transform_tolower]

theorem match_pos_eq_find (L P : Str) (ic : Bool) :
    match_pos L P ic = find (lowered ic L) (lowered ic P) := rfl

/-- What is written for a single line in which the search succeeds at `pos`. -/
theorem print_matches_single_some (colorize : Bool) (pfx L P : Str) (ic : Bool) (pos : Nat)
    (h : match_pos L P ic = some pos) :
    print_matches colorize pfx [L] P ic =
      some [if colorize then
          pfx ++ (lowered ic L).take pos ++ bold_red ++
            ((lowered ic L).drop pos).take (lowered ic P).length ++ reset ++
            (lowered ic L).drop (pos + (lowered ic P).length) ++ endl
        else pfx ++ lowered ic L ++ endl] := by
  rw [print_matches_single]
  simp only [h]
  have hb := find_bound _ _ pos h
  rw [emit_eq colorize pfx _ _ pos hb]
  rfl

/-- Off a terminal each chunk is the prefix, the line as searched, and a newline. -/
theorem print_matches_off_terminal (pfx : Str) (input : List Str) (P : Str) (ic : Bool) :
    print_matches false pfx input P ic =
      some ((input.filter (fun L => (match_pos L P ic).isSome)).map (fun L =>
        pfx ++ lowered ic L ++ endl)) := by
  rw [print_matches_eq]
  congr 1
  apply List.map_congr_left
  intro L hL
  have hm : (match_pos L P ic).isSome = true := (List.mem_filter.mp hL).2
  obtain ⟨pos, hpos⟩ := Option.isSome_iff_exists.mp hm
  rw [hpos, Option.getD_some, emit_eq false [] _ _ pos (find_bound _ _ pos hpos)]
  simp [lowered, List.append_assoc]

set_option maxRecDepth 100000 in
theorem fold_byte_eq_escape : ∀ b : Byte, fold_byte b = 27 → b = 27 := by
  decide

theorem escape_not_mem_lowered (L : Str) (ic : Bool) (h : (27 : Byte) ∉ L) :
    (27 : Byte) ∉ lowered ic L := by
  cases ic with
  | false => simpa [lowered] using h
  | true =>
    simp only [lowered, if_true, transform_tolower_eq_fold, fold, List.mem_map, not_exists,
      not_and]
    intro b hbL hf
    exact h (fold_byte_eq_escape b hf ▸ hbL)

/-- Every byte of a line returned by `read_input` is a byte of the stream. -/
theorem read_input_mem (s l : Str) (b : Byte) (hl : l ∈ read_input s) (hb : b ∈ l) : b ∈ s := by
  obtain ⟨h1, h2, _⟩ := read_input_spec s
  have hne : b ≠ 10 := fun h => h1 l hl (h ▸ hb)
  have hmem : b ∈ (read_input s).flatMap (fun l => l ++ [10]) :=
    List.mem_flatMap.mpr ⟨l, hl, by simp [hb]⟩
  rw [h2] at hmem
  split at hmem
  · exact hmem
  · rcases List.mem_append.mp hmem with h | h
    · exact h
    · exact absurd (by simpa using h) hne

set_option maxRecDepth 100000 in
theorem fold_byte_idem : ∀ b : Byte, fold_byte (fold_byte b) = fold_byte b := by
  decide

theorem fold_idem (x : Str) : fold (fold x) = fold x := by
  simp [fold, List.map_map, Function.comp_def, fold_byte_idem]

/-- Off a terminal, chunks written after an escape-free prefix for escape-free lines hold
no escape byte. -/
theorem print_matches_escape_free (pfx : Str) (input : List Str) (P : Str) (ic : Bool)
    (hp : (27 : Byte) ∉ pfx) (hin : ∀ L ∈ input, (27 : Byte) ∉ L) :
    ∀ chunk ∈ (print_matches false pfx input P ic).getD [], (27 : Byte) ∉ chunk := by
  intro chunk hc
  rw [print_matches_off_terminal, Option.getD_some] at hc
  obtain ⟨L, hL, rfl⟩ := List.mem_map.mp hc
  have hLin : L ∈ input := (List.mem_filter.mp hL).1
  have hl := escape_not_mem_lowered L ic (hin L hLin)
  simp [hp, hl, endl]

theorem print_help_escape_free : ∀ chunk ∈ print_help, (27 : Byte) ∉ chunk := by
  decide

/-- The slices of lines 107-109 put together again. -/
theorem slices_append (line : Str) (pos n : Nat) :
    line.take pos ++ (line.drop pos).take n ++ line.drop (pos + n) = line := by
  have h : line.drop (pos + n) = (line.drop pos).drop n := by
    rw [List.drop_drop, Nat.add_comm]
  rw [h, List.append_assoc, List.take_append_drop, List.take_append_drop]

/-- The empty pattern is found at offset 0 of every line. -/
theorem match_pos_empty (L : Str) (ic : Bool) : match_pos L [] ic = some 0 := by
  have hl : lowered ic ([] : Str) = [] := by cases ic <;> rfl
  rw [match_pos_eq_find, hl, find_eq_some_iff]
  simp

/-- An element that is one option left pending takes the next element as argument. -/
theorem getopt_long_pending (a b : Str) (rest : List Str) (v : Nat)
    (hc : classify a = .options ⟨[], some v⟩) :
    getopt_long (a :: b :: rest) = (⟨v, b⟩ :: (getopt_long rest).1, (getopt_long rest).2) := by
  rw [getopt_long, hc]
  rfl

/-- An element that is one option with its argument attached. -/
theorem getopt_long_attached (a : Str) (rest : List Str) (r : GetoptReturn)
    (hc : classify a = .options ⟨[r], none⟩) :
    getopt_long (a :: rest) = (r :: (getopt_long rest).1, (getopt_long rest).2) := by
  rw [getopt_long, hc]
  rfl

/-- The values `getopt_long` returns for `-r ""` followed by `rest`. -/
theorem getopt_long_r_empty (rest : List Str) :
    getopt_long (lit "-r" :: [] :: rest) =
      (⟨114, []⟩ :: (getopt_long rest).1, (getopt_long rest).2) :=
  getopt_long_pending (lit "-r") [] rest 114 (by decide)

theorem getopt_long_recursive_empty (rest : List Str) :
    getopt_long (lit "--recursive" :: [] :: rest) =
      (⟨114, []⟩ :: (getopt_long rest).1, (getopt_long rest).2) :=
  getopt_long_pending (lit "--recursive") [] rest 114 (by decide)

theorem getopt_long_recursive_eq_empty (rest : List Str) :
    getopt_long (lit "--recursive=" :: rest) =
      (⟨114, []⟩ :: (getopt_long rest).1, (getopt_long rest).2) :=
  getopt_long_attached (lit "--recursive=") rest ⟨114, []⟩ (by decide)

/-- An empty directory given first leaves `read_args` as it is without it. -/
theorem read_args_of_empty_dir (argv0 : Str) (args rest : List Str)
    (h : getopt_long args = (⟨114, []⟩ :: (getopt_long rest).1, (getopt_long rest).2)) :
    read_args argv0 args = read_args argv0 rest := by
  unfold read_args
  simp only [h]
  rfl

theorem main_of_read_args_eq (w : World) (argv0 : Str) (args rest : List Str)
    (h : read_args argv0 args = read_args argv0 rest) :
    main w argv0 args = main w argv0 rest := by
  unfold main
  rw [h]

/-! ## The claims -/

/-- C1: case-sensitive matching. A line `L` is written by `print_matches` with
`ignore_case = false` if and only if the pattern `P` occurs in `L` as a contiguous
substring; when it is written, the offset `find` returned, which is the one the
highlighting uses, is the lowest `pos` with `L[pos, pos+|P|) = P`.  The scenario
`rapid-grep foo` on `"foobar\nbaz\n"` writes `"foobar\n"`. -/
theorem C1_case_sensitive_match (colorize : Bool) (pfx L P : Str) :
    ((∃ chunk, print_matches colorize pfx [L] P false = some [chunk]) ↔ P <:+: L) ∧
    (¬ P <:+: L → print_matches colorize pfx [L] P false = some []) ∧
    (P <:+: L → ∃ pos, find L P = some pos ∧
        pos + P.length ≤ L.length ∧ (L.drop pos).take P.length = P ∧
        (∀ j, j < pos → (L.drop j).take P.length ≠ P) ∧
        print_matches colorize pfx [L] P false =
          some [if colorize then
              pfx ++ L.take pos ++ bold_red ++ (L.drop pos).take P.length ++ reset ++
                L.drop (pos + P.length) ++ endl
            else pfx ++ L ++ endl]) ∧
    print_matches false [] (read_input (lit "foobar\nbaz\n")) (lit "foo") false =
      some [lit "foobar\n"] := by
  have hnone : ¬ P <:+: L → print_matches colorize pfx [L] P false = some [] := by
    intro h
    have hf := (find_eq_none_iff L P).mpr h
    simp only [print_matches, Bool.false_eq_true, if_false]
    rw [print_matches_loop_cons_none colorize pfx P false L [] (by simpa using hf)]
    rfl
  have hsome : P <:+: L → ∃ pos, find L P = some pos ∧
        pos + P.length ≤ L.length ∧ (L.drop pos).take P.length = P ∧
        (∀ j, j < pos → (L.drop j).take P.length ≠ P) ∧
        print_matches colorize pfx [L] P false =
          some [if colorize then
              pfx ++ L.take pos ++ bold_red ++ (L.drop pos).take P.length ++ reset ++
                L.drop (pos + P.length) ++ endl
            else pfx ++ L ++ endl] := by
    intro h
    obtain ⟨pos, hf⟩ := (find_isSome_iff L P).mpr h
    obtain ⟨hle, heq, hmin⟩ := (find_eq_some_iff L P pos).mp hf
    refine ⟨pos, hf, hle, heq, hmin, ?_⟩
    simp only [print_matches, Bool.false_eq_true, if_false]
    rw [print_matches_loop_cons_some colorize pfx P false L [] pos (by simpa using hf)]
    simp only [Bool.false_eq_true, if_false]
    rw [emit_eq colorize pfx L P pos hle]
    rfl
  refine ⟨?_, hnone, hsome, by decide⟩
  constructor
  · rintro ⟨chunk, hc⟩
    by_contra hn
    rw [hnone hn] at hc
    simp at hc
  · intro h
    obtain ⟨pos, _, _, _, _, hp⟩ := hsome h
    exact ⟨_, hp⟩

/-- C2: case-insensitive matching.  The lowering done by the code is the fold of the
specification; with `ignore_case = true` the line `L` is written if and only if the
case-sensitive run writes `fold L` for the pattern `fold P`, and the offset found is the
same.  The pattern `"FOO"` matches the line `"foobar"` (at offset 0). -/
theorem C2_ignore_case_is_fold (colorize : Bool) (pfx L P : Str) :
    transform_tolower L = fold L ∧ transform_tolower P = fold P ∧
    ((∃ chunk, print_matches colorize pfx [L] P true = some [chunk]) ↔
      (∃ chunk, print_matches colorize pfx [fold L] (fold P) false = some [chunk])) ∧
    match_pos L P true = match_pos (fold L) (fold P) false ∧
    match_pos (lit "foobar") (lit "FOO") true = some 0 ∧
    print_matches false [] [lit "foobar"] (lit "FOO") true = some [lit "foobar\n"] := by
  have hpos : match_pos L P true = match_pos (fold L) (fold P) false := by
    simp [match_pos, transform_tolower_eq_fold]
  refine ⟨transform_tolower_eq_fold L, transform_tolower_eq_fold P, ?_, hpos,
    by decide, by decide⟩
  rw [print_matches_single_selected, print_matches_single_selected, hpos]

/-- C3: evaluation at a failing input.  With `ignore_case` set and standard output not a
terminal, the line `"FooBar"` matched by the pattern `"foo"` is written as `"foobar\n"`,
the lowered copy, and not as the input line `"FooBar"` followed by a newline. -/
theorem C3_non_interactive_writes_lowered_copy :
    print_matches false [] [lit "FooBar"] (lit "foo") true = some [lit "foobar\n"] ∧
    print_matches false [] [lit "FooBar"] (lit "foo") true ≠ some [[] ++ lit "FooBar" ++ endl] := by
  decide

/-- C4: evaluation at a failing input.  With `ignore_case` set and standard output a
terminal, the line `"FooBar"` matched by the pattern `"foo"` at offset 0 is written with
all three slices taken from the lowered copy `"foobar"`: the highlighted slice is `"foo"`
and the remainder `"bar"`, not the slices `"Foo"` and `"Bar"` of the input line. -/
theorem C4_interactive_slices_from_lowered_copy :
    match_pos (lit "FooBar") (lit "foo") true = some 0 ∧
    print_matches true [] [lit "FooBar"] (lit "foo") true =
      some [lit "\x1b[1;31mfoo\x1b[0mbar\n"] ∧
    print_matches true [] [lit "FooBar"] (lit "foo") true ≠
      some [[] ++ (lit "FooBar").take 0 ++ lit "\x1b[1;31m" ++ ((lit "FooBar").drop 0).take 3 ++
        lit "\x1b[0m" ++ (lit "FooBar").drop (0 + 3) ++ endl] := by
  decide

/-- C5: origin prefix.  In directory mode the prefix `main` passes to `print_matches` for
the file at `path` is, on a terminal, `"\x1b[0;35m" ++ path ++ "\x1b[0m" ++ "\x1b[0;36m"
++ ":" ++ "\x1b[0m"`, and otherwise `path` alone; in stream mode it is empty.  Off a
terminal every chunk written is the prefix immediately followed by what is written for
the line without a prefix: no separator or space comes between the two. -/
theorem C5_prefix_per_mode (w : World) (argv0 : Str) (args : List Str) (options : Options)
    (h : (read_args argv0 args).ret = some options) (hh : options.help_only = false) :
    (∀ path, prefix_of w path =
      if w.isatty then
        lit "\x1b[0;35m" ++ path ++ lit "\x1b[0m" ++ lit "\x1b[0;36m" ++ lit ":" ++ lit "\x1b[0m"
      else path) ∧
    (options.scanning_directory ≠ [] →
      (main w argv0 args).cout =
        ((w.walk options.scanning_directory).entries.filter
          (fun p => p.is_regular_file)).flatMap (fun p =>
            (print_matches w.isatty (prefix_of w p.path) (read_input p.content)
              options.pattern options.ignore_case).getD [])) ∧
    (options.scanning_directory = [] →
      (main w argv0 args).cout =
        (print_matches w.isatty [] (read_input w.cin) options.pattern
          options.ignore_case).getD []) ∧
    (∀ (path : Str) (input : List Str) (P : Str) (ic : Bool),
      print_matches false path input P ic =
        (print_matches false [] input P ic).map (fun out => out.map (fun chunk => path ++ chunk))) := by
  refine ⟨?_, ?_, ?_, fun path input P ic => print_matches_prefixed false path input P ic⟩
  · intro path
    have hl : lit "\x1b[0m\x1b[0;36m:\x1b[0m" =
        lit "\x1b[0m" ++ lit "\x1b[0;36m" ++ lit ":" ++ lit "\x1b[0m" := by decide
    unfold prefix_of is_stdout_terminal
    rw [hl]
    cases w.isatty <;> simp [List.append_assoc]
  · intro hd
    rw [main_search w argv0 args options h hh]
    simp [hd]
  · intro hd
    rw [main_search w argv0 args options h hh]
    simp [hd]

/-- Witness of C5: `rapid-grep -r ./dir needle` with output piped, over a directory that
holds `a.txt` with the line `"needle found"`, writes the path immediately followed by
the line. -/
theorem C5_prefix_per_mode_witness :
    (read_args (lit "rapid-grep") [lit "-r", lit "./dir", lit "needle"]).ret =
      some ⟨false, false, lit "needle", lit "./dir"⟩ ∧
    (main ⟨false, [], fun _ => ⟨[⟨lit "./dir/sub", false, []⟩,
        ⟨lit "./dir/a.txt", true, lit "needle found\nother\n"⟩], false⟩⟩
      (lit "rapid-grep") [lit "-r", lit "./dir", lit "needle"]).cout =
      [lit "./dir/a.txtneedle found\n"] :=
  ⟨by decide,
    ((C5_prefix_per_mode ⟨false, [], fun _ => ⟨[⟨lit "./dir/sub", false, []⟩,
        ⟨lit "./dir/a.txt", true, lit "needle found\nother\n"⟩], false⟩⟩
      (lit "rapid-grep") [lit "-r", lit "./dir", lit "needle"]
      ⟨false, false, lit "needle", lit "./dir"⟩ (by decide) rfl).2.1 (by decide)).trans
      (by decide)⟩

/-- C6: argument resolution.  When `getopt_long` returns only `'i'` and `'r'` (no help
option, nothing unrecognised), `read_args` succeeds if and only if exactly one element is
left after the options; the configuration then has that element as pattern, `ignore_case`
set exactly when `'i'` was returned, and as directory the argument of the last `'r'`
(empty when there was none).  With no element or several left it returns null. -/
theorem C6_read_args_recognised_options (argv0 : Str) (args : List Str)
    (h : ∀ r ∈ (getopt_long args).1, r.c = 105 ∨ r.c = 114) :
    ((∃ o, (read_args argv0 args).ret = some o) ↔ ∃ p, (getopt_long args).2 = [p]) ∧
    (∀ p, (getopt_long args).2 = [p] →
      (read_args argv0 args).ret =
        some ⟨(getopt_long args).1.any (fun r => decide (r.c = 105)), false, p,
          (((getopt_long args).1.filter (fun r => decide (r.c = 114))).map
            (fun r => r.optarg)).getLast?.getD []⟩) ∧
    ((getopt_long args).2.length ≠ 1 → (read_args argv0 args).ret = none) := by
  rw [read_args_recognised argv0 args h]
  rcases (getopt_long args).2 with _ | ⟨p, _ | ⟨q, t⟩⟩ <;> simp

/-- Witness of C6: `rapid-grep -i -r d1 --recursive=d2 pat` resolves to the pattern
`pat`, case-insensitive, in the directory `d2` of the last `-r`. -/
theorem C6_read_args_recognised_options_witness :
    (∀ r ∈ (getopt_long [lit "-i", lit "-r", lit "d1", lit "--recursive=d2", lit "pat"]).1,
      r.c = 105 ∨ r.c = 114) ∧
    (read_args (lit "rapid-grep")
      [lit "-i", lit "-r", lit "d1", lit "--recursive=d2", lit "pat"]).ret =
      some ⟨true, false, lit "pat", lit "d2"⟩ :=
  ⟨by decide,
    ((C6_read_args_recognised_options (lit "rapid-grep")
      [lit "-i", lit "-r", lit "d1", lit "--recursive=d2", lit "pat"] (by decide)).2.1
      (lit "pat") (by decide)).trans (by decide)⟩

/-- C7, as stated, fails: in `rapid-grep -x -h` the option `-h` is present, but the
unrecognised `-x` is met first and `main` returns 1. -/
theorem C7_help_after_unrecognised_fails :
    lit "-h" ∈ [lit "-x", lit "-h"] ∧
    (getopt_long [lit "-x", lit "-h"]).1 = [⟨63, []⟩, ⟨104, []⟩] ∧
    (main ⟨false, [], fun _ => ⟨[], false⟩⟩ (lit "rapid-grep") [lit "-x", lit "-h"]).status =
      some 1 := by
  decide

/-- C7, amended: when `getopt_long` returns `'h'` and every value it returned before is
`'i'` or `'r'`, the program writes the usage text and nothing else, returns 0 and makes
no search, whatever follows the help option and whatever the number of other arguments. -/
theorem C7_help_reached_first (w : World) (argv0 : Str) (args : List Str)
    (pre post : List GetoptReturn) (x : GetoptReturn)
    (h : (getopt_long args).1 = pre ++ x :: post)
    (hpre : ∀ y ∈ pre, y.c = 105 ∨ y.c = 114) (hx : x.c = 104) :
    main w argv0 args = ⟨some 0, print_help, []⟩ := by
  have hr := read_args_help argv0 args pre post x h hpre hx
  rw [main_early w argv0 args (Or.inr ⟨_, by rw [hr], rfl⟩)]
  simp [hr]

/-- Witness of C7 amended: `rapid-grep -i a b --help -x` prints the usage text and
returns 0, although two positional arguments and an unrecognised option are present. -/
theorem C7_help_reached_first_witness :
    (getopt_long [lit "-i", lit "a", lit "b", lit "--help", lit "-x"]).1 =
      [⟨105, []⟩] ++ ⟨104, []⟩ :: [⟨63, []⟩] ∧
    main ⟨true, lit "a\n", fun _ => ⟨[], true⟩⟩ (lit "rapid-grep")
      [lit "-i", lit "a", lit "b", lit "--help", lit "-x"] = ⟨some 0, print_help, []⟩ :=
  ⟨by decide,
    C7_help_reached_first ⟨true, lit "a\n", fun _ => ⟨[], true⟩⟩ (lit "rapid-grep")
      [lit "-i", lit "a", lit "b", lit "--help", lit "-x"] [⟨105, []⟩] [⟨63, []⟩] ⟨104, []⟩
      (by decide) (by decide) rfl⟩

/-- C8: exit status.  `main` returns 1 exactly when `read_args` returns null, which
happens exactly on an unrecognised option met before any help option or when the number
of positional arguments is not one; it returns 0 after a help display and after a
completed search (standard input, or a directory walk that ends without an exception);
it returns no other value.  When help was requested or resolution failed, only the usage
text goes to standard output and the outcome does not depend on standard input, on the
file system or on the terminal.  `rapid-grep` without a pattern returns 1. -/
theorem C8_exit_status (w : World) (argv0 : Str) (args : List Str) :
    ((main w argv0 args).status = some 1 ↔ (read_args argv0 args).ret = none) ∧
    ((read_args argv0 args).ret = none ↔
      (∃ pre x post, (getopt_long args).1 = pre ++ x :: post ∧
        (∀ y ∈ pre, y.c = 105 ∨ y.c = 114) ∧ x.c ≠ 104 ∧ x.c ≠ 105 ∧ x.c ≠ 114) ∨
      ((∀ r ∈ (getopt_long args).1, r.c = 105 ∨ r.c = 114) ∧
        (getopt_long args).2.length ≠ 1)) ∧
    (∀ o, (read_args argv0 args).ret = some o → o.help_only = true →
      (main w argv0 args).status = some 0) ∧
    (∀ o, (read_args argv0 args).ret = some o → o.help_only = false →
      (o.scanning_directory = [] ∨ (w.walk o.scanning_directory).throws = false) →
      (main w argv0 args).status = some 0) ∧
    (∀ n, (main w argv0 args).status = some n → n = 0 ∨ n = 1) ∧
    (((read_args argv0 args).ret = none ∨
        ∃ o, (read_args argv0 args).ret = some o ∧ o.help_only = true) →
      (main w argv0 args).cout = print_help ∧
        ∀ w1 : World, main w1 argv0 args = main w argv0 args) ∧
    (main w (lit "rapid-grep") []).status = some 1 := by
  refine ⟨?_, read_args_none_iff argv0 args, ?_, ?_, ?_, ?_, ?_⟩
  · rcases read_args_cases argv0 args with ⟨h0, _⟩ | ⟨o, ho, hho, _⟩ | ⟨o, ho, hho, _⟩
    · rw [main_early w argv0 args (Or.inl h0)]
      simp [h0]
    · rw [main_early w argv0 args (Or.inr ⟨o, ho, hho⟩)]
      simp [ho]
    · rw [main_search w argv0 args o ho hho]
      by_cases hd : o.scanning_directory = []
      · simp [hd, ho]
      · cases ht : (w.walk o.scanning_directory).throws <;> simp [hd, ho, ht]
  · intro o ho hho
    rw [main_early w argv0 args (Or.inr ⟨o, ho, hho⟩)]
    simp [ho]
  · intro o ho hho hd
    rw [main_search w argv0 args o ho hho]
    rcases hd with hd | hd
    · simp [hd]
    · by_cases he : o.scanning_directory = [] <;> simp [he, hd]
  · intro n hn
    rcases read_args_cases argv0 args with ⟨h0, _⟩ | ⟨o, ho, hho, _⟩ | ⟨o, ho, hho, _⟩
    · rw [main_early w argv0 args (Or.inl h0)] at hn
      simp [h0] at hn
      omega
    · rw [main_early w argv0 args (Or.inr ⟨o, ho, hho⟩)] at hn
      simp [ho] at hn
      omega
    · rw [main_search w argv0 args o ho hho] at hn
      by_cases hd : o.scanning_directory = []
      · simp [hd] at hn
        omega
      · cases ht : (w.walk o.scanning_directory).throws <;> simp [hd, ht] at hn
        omega
  · intro h
    refine ⟨?_, fun w1 => ?_⟩
    · rw [main_early w argv0 args h]
    · rw [main_early w argv0 args h, main_early w1 argv0 args h]
  · rw [main_early w (lit "rapid-grep") [] (Or.inl (by decide))]
    decide

/-- C9: line splitting.  No line returned by `read_input` holds a newline byte; an empty
stream gives no line; for a stream that ends with a newline, the lines each followed by a
newline give back the stream (no empty final line is added); for a stream that does not,
joining the lines with newlines gives back the stream, and, when it is not empty, the last
line is the unterminated segment after the last newline. -/
theorem C9_read_input_lines (s : Str) :
    (∀ l ∈ read_input s, (10 : Byte) ∉ l) ∧
    (s = [] → read_input s = []) ∧
    (s.getLast? = some 10 → (read_input s).flatMap (fun l => l ++ [10]) = s) ∧
    (s.getLast? ≠ some 10 → List.intercalate [10] (read_input s) = s) ∧
    (s ≠ [] → s.getLast? ≠ some 10 →
      (read_input s).getLast? =
        some ((s.reverse.takeWhile (fun b => decide (b ≠ 10))).reverse)) ∧
    read_input (lit "foobar\nbaz\n") = [lit "foobar", lit "baz"] ∧
    read_input (lit "foobar\nbaz") = [lit "foobar", lit "baz"] := by
  obtain ⟨h1, h2, h3⟩ := read_input_spec s
  refine ⟨h1, ?_, ?_, ?_, h3, by decide, by decide⟩
  · rintro rfl
    rfl
  · intro hl
    rw [h2]
    simp [hl]
  · intro hl
    by_cases hs : s = []
    · subst hs
      rfl
    · have hne : read_input s ≠ [] := by
        cases s with
        | nil => exact absurd rfl hs
        | cons c cs =>
          rw [read_input_cons]
          simp
      rw [flatMap_append_sep [10] _ hne] at h2
      simp only [hs, hl, or_self, if_false] at h2
      exact List.append_cancel_right h2

/-- C10: order-preserving filter.  There is a rendering of single lines such that, for
every input, what `print_matches` writes is, in order, the rendering of each line for
which the search succeeds: a line that does not match writes nothing, a line that matches
writes exactly one chunk, however many times the pattern occurs in it (`"abab"` for the
pattern `"ab"`), and that chunk is one line of output when neither the prefix nor the
input line holds a newline. -/
theorem C10_order_preserving_filter (colorize : Bool) (pfx P : Str) (ic : Bool) :
    ∃ render : Str → Str,
      (∀ input : List Str,
        print_matches colorize pfx input P ic =
          some ((input.filter (fun L => (match_pos L P ic).isSome)).map render)) ∧
      (∀ L, match_pos L P ic = none → print_matches colorize pfx [L] P ic = some []) ∧
      (∀ L pos, match_pos L P ic = some pos →
        print_matches colorize pfx [L] P ic = some [render L]) ∧
      (∀ L pos, match_pos L P ic = some pos → (10 : Byte) ∉ pfx → (10 : Byte) ∉ L →
        ∃ body, render L = body ++ [10] ∧ (10 : Byte) ∉ body) ∧
      (∀ L, (∃ pos, match_pos L P ic = some pos) ↔
        (if ic then transform_tolower P else P) <:+: (if ic then transform_tolower L else L)) ∧
      print_matches false [] [lit "abab", lit "ba", lit "cab"] (lit "ab") false =
        some [lit "abab\n", lit "cab\n"] := by
  refine ⟨fun L => (emit colorize pfx (if ic then transform_tolower L else L)
      (if ic then transform_tolower P else P) ((match_pos L P ic).getD 0)).getD [],
    ?_, ?_, ?_, ?_, ?_, by decide⟩
  · intro input
    rw [print_matches_eq]
    congr 1
    apply List.map_congr_left
    intro L hL
    have hm : (match_pos L P ic).isSome = true := (List.mem_filter.mp hL).2
    obtain ⟨pos, hpos⟩ := Option.isSome_iff_exists.mp hm
    rw [hpos]
    exact (emit_getD colorize pfx _ _ pos (find_bound _ _ pos hpos)).symm
  · intro L hL
    rw [print_matches_single, hL]
  · intro L pos hL
    rw [print_matches_single]
    simp only [hL, Option.getD_some]
    rw [emit_eq colorize pfx _ _ pos (find_bound _ _ pos hL)]
    rfl
  · intro L pos hL hp hl
    simp only [hL, Option.getD_some]
    exact emit_one_line colorize pfx _ _ pos (find_bound _ _ pos hL) hp
      (newline_not_mem_lowered L ic hl)
  · intro L
    exact find_isSome_iff _ _

/-- C11: no escapes off a terminal.  When standard output is not a terminal, the prefix
is the bare path and every chunk `print_matches` writes is the prefix, the line as
searched and a newline, with nothing inserted; so when neither standard input nor the
paths and contents met by the directory walk hold the byte `0x1b`, no chunk written to
standard output by `main` holds it, whatever the arguments. -/
theorem C11_no_escape_off_terminal (w : World) (argv0 : Str) (args : List Str)
    (hw : w.isatty = false) (hcin : (27 : Byte) ∉ w.cin)
    (hfs : ∀ d, ∀ e ∈ (w.walk d).entries, (27 : Byte) ∉ e.path ∧ (27 : Byte) ∉ e.content) :
    (∀ path, prefix_of w path = path) ∧
    (∀ (pfx : Str) (input : List Str) (P : Str) (ic : Bool),
      print_matches w.isatty pfx input P ic =
        some ((input.filter (fun L => (match_pos L P ic).isSome)).map (fun L =>
          pfx ++ lowered ic L ++ endl))) ∧
    (∀ chunk ∈ (main w argv0 args).cout, (27 : Byte) ∉ chunk) := by
  have hpre : ∀ path, prefix_of w path = path := by
    intro path
    simp [prefix_of, is_stdout_terminal, hw]
  refine ⟨hpre, ?_, ?_⟩
  · intro pfx input P ic
    rw [hw]
    exact print_matches_off_terminal pfx input P ic
  · rcases read_args_cases argv0 args with ⟨h0, _⟩ | ⟨o, ho, hho, _⟩ | ⟨o, ho, hho, _⟩
    · rw [main_early w argv0 args (Or.inl h0)]
      exact print_help_escape_free
    · rw [main_early w argv0 args (Or.inr ⟨o, ho, hho⟩)]
      exact print_help_escape_free
    · rw [main_search w argv0 args o ho hho]
      by_cases hd : o.scanning_directory = []
      · simp only [hd, if_true, hw]
        exact print_matches_escape_free [] _ _ _ (by simp)
          (fun L hL hm => hcin (read_input_mem w.cin L 27 hL hm))
      · simp only [hd, if_false, hw]
        intro chunk hc
        obtain ⟨e, he, hce⟩ := List.mem_flatMap.mp hc
        have hee := hfs o.scanning_directory e (List.mem_filter.mp he).1
        rw [hpre] at hce
        exact print_matches_escape_free e.path _ _ _ hee.1
          (fun L hL hm => hee.2 (read_input_mem e.content L 27 hL hm)) chunk hce

/-- Witness of C11: `rapid-grep -i -r d needle` with output piped, over a walk that meets
one regular file: the only chunk written is the path and the lowered line. -/
theorem C11_no_escape_off_terminal_witness :
    (main ⟨false, [], fun _ => ⟨[⟨lit "d/a.txt", true, lit "Needle found\nother\n"⟩], false⟩⟩
      (lit "rapid-grep") [lit "-i", lit "-r", lit "d", lit "needle"]).cout =
      [lit "d/a.txtneedle found\n"] ∧
    ∀ chunk ∈ (main ⟨false, [], fun _ => ⟨[⟨lit "d/a.txt", true, lit "Needle found\nother\n"⟩],
        false⟩⟩ (lit "rapid-grep") [lit "-i", lit "-r", lit "d", lit "needle"]).cout,
      (27 : Byte) ∉ chunk :=
  ⟨by decide,
    (C11_no_escape_off_terminal
      ⟨false, [], fun _ => ⟨[⟨lit "d/a.txt", true, lit "Needle found\nother\n"⟩], false⟩⟩
      (lit "rapid-grep") [lit "-i", lit "-r", lit "d", lit "needle"] rfl (by decide)
      (fun _ e he => by
        have h : e = ⟨lit "d/a.txt", true, lit "Needle found\nother\n"⟩ := by simpa using he
        subst h
        decide)).2.2⟩

/-- C12: renderings agree outside the highlight.  For a line in which the search succeeds
at `pos`, the chunk written on a terminal is `pfx ++ a ++ "\x1b[1;31m" ++ m ++ "\x1b[0m"
++ b ++ newline`, with `a` of `pos` bytes and `m` of as many bytes as the pattern, and
the chunk written off a terminal for the same line and prefix is `pfx ++ a ++ m ++ b ++
newline`, the same bytes without the two escape sequences. -/
theorem C12_renderings_agree (pfx L P : Str) (ic : Bool) (pos : Nat)
    (h : match_pos L P ic = some pos) :
    ∃ a m b, a.length = pos ∧ m.length = P.length ∧
      print_matches true pfx [L] P ic =
        some [pfx ++ a ++ lit "\x1b[1;31m" ++ m ++ lit "\x1b[0m" ++ b ++ [10]] ∧
      print_matches false pfx [L] P ic = some [pfx ++ a ++ m ++ b ++ [10]] := by
  have hb2 : pos + (lowered ic P).length ≤ (lowered ic L).length := find_bound _ _ pos h
  refine ⟨(lowered ic L).take pos, ((lowered ic L).drop pos).take (lowered ic P).length,
    (lowered ic L).drop (pos + (lowered ic P).length), ?_, ?_, ?_, ?_⟩
  · rw [List.length_take]
    omega
  · rw [List.length_take, List.length_drop, ← lowered_length ic P]
    omega
  · rw [print_matches_single_some true pfx L P ic pos h]
    rfl
  · rw [print_matches_single_some false pfx L P ic pos h]
    simp only [Bool.false_eq_true, if_false]
    have hs := slices_append (lowered ic L) pos (lowered ic P).length
    conv_lhs => rw [← hs]
    simp [List.append_assoc, endl]

/-- Witness of C12: the line `"fooBar"` and the pattern `"oB"`, found at offset 2. -/
theorem C12_renderings_agree_witness :
    match_pos (lit "fooBar") (lit "oB") false = some 2 ∧
    ∃ a m b, a.length = 2 ∧ m.length = (lit "oB").length ∧
      print_matches true (lit "p:") [lit "fooBar"] (lit "oB") false =
        some [lit "p:" ++ a ++ lit "\x1b[1;31m" ++ m ++ lit "\x1b[0m" ++ b ++ [10]] ∧
      print_matches false (lit "p:") [lit "fooBar"] (lit "oB") false =
        some [lit "p:" ++ a ++ m ++ b ++ [10]] :=
  ⟨by decide, C12_renderings_agree (lit "p:") (lit "fooBar") (lit "oB") false 2 (by decide)⟩

/-- C13, as stated, fails: without a pattern the message written is `"rapid-grep: pattern
file is required"`, in which `"pattern is required"` does not occur, and with two
patterns it is `"rapid-grep: too many pattern, expected only one"`, in which `"too many
patterns, expected only one"` does not occur. -/
theorem C13_messages_of_the_code_differ :
    (read_args (lit "rapid-grep") []).cerr = [lit "rapid-grep: pattern file is required\n"] ∧
    find (lit "rapid-grep: pattern file is required\n") (lit "pattern is required") = none ∧
    (read_args (lit "rapid-grep") [lit "a", lit "b"]).cerr =
      [lit "rapid-grep: too many pattern, expected only one\n"] ∧
    find (lit "rapid-grep: too many pattern, expected only one\n")
      (lit "too many patterns, expected only one") = none := by
  decide

/-- C13, amended: when the option scan ends without meeting a help option or an
unrecognised one, and no positional argument is left, `read_args` writes `argv[0]`
followed by `": pattern file is required"` to standard error; when more than one is left
it writes `argv[0]` followed by `": too many pattern, expected only one"`; in both cases
the usage text is written to standard output, null is returned and `main` returns 1. -/
theorem C13_usage_error_messages (w : World) (argv0 : Str) (args : List Str)
    (h : ∀ r ∈ (getopt_long args).1, r.c = 105 ∨ r.c = 114) :
    ((getopt_long args).2 = [] →
      read_args argv0 args =
        ⟨none, print_help, [argv0 ++ lit ": pattern file is required" ++ endl]⟩ ∧
      (main w argv0 args).status = some 1) ∧
    (2 ≤ (getopt_long args).2.length →
      read_args argv0 args =
        ⟨none, print_help, [argv0 ++ lit ": too many pattern, expected only one" ++ endl]⟩ ∧
      (main w argv0 args).status = some 1) := by
  have hr := read_args_recognised argv0 args h
  constructor
  · intro h0
    rw [h0] at hr
    refine ⟨hr, ?_⟩
    rw [main_early w argv0 args (Or.inl (by rw [hr]))]
    simp [hr]
  · intro h2
    rcases hl : (getopt_long args).2 with _ | ⟨p, _ | ⟨q, t⟩⟩
    · simp [hl] at h2
    · simp [hl] at h2
    · rw [hl] at hr
      refine ⟨hr, ?_⟩
      rw [main_early w argv0 args (Or.inl (by rw [hr]))]
      simp [hr]

/-- Witness of C13 amended: `rapid-grep -i` has no pattern and `rapid-grep -i a b` has
two. -/
theorem C13_usage_error_messages_witness :
    (read_args (lit "rapid-grep") [lit "-i"] =
      ⟨none, print_help, [lit "rapid-grep" ++ lit ": pattern file is required" ++ endl]⟩ ∧
      (main ⟨false, [], fun _ => ⟨[], false⟩⟩ (lit "rapid-grep") [lit "-i"]).status = some 1) ∧
    (read_args (lit "rapid-grep") [lit "-i", lit "a", lit "b"] =
      ⟨none, print_help,
        [lit "rapid-grep" ++ lit ": too many pattern, expected only one" ++ endl]⟩ ∧
      (main ⟨false, [], fun _ => ⟨[], false⟩⟩ (lit "rapid-grep")
        [lit "-i", lit "a", lit "b"]).status = some 1) :=
  ⟨(C13_usage_error_messages ⟨false, [], fun _ => ⟨[], false⟩⟩ (lit "rapid-grep") [lit "-i"]
      (by decide)).1 (by decide),
    (C13_usage_error_messages ⟨false, [], fun _ => ⟨[], false⟩⟩ (lit "rapid-grep")
      [lit "-i", lit "a", lit "b"] (by decide)).2 (by decide)⟩

/-- C14: slice bounds.  Whenever the search succeeds at `pos`, `pos` plus the length of
the pattern is at most the length of the line, lowering changing neither length; the
three `substr` calls of lines 107-109 do not throw; the highlighted slice is the pattern
as compared (lowered when `ignore_case` is set), hence of the length of the pattern; and
the three slices put together are the line that was searched. -/
theorem C14_slice_bounds (L P : Str) (ic : Bool) (pos : Nat)
    (h : match_pos L P ic = some pos) :
    pos + P.length ≤ L.length ∧
    (lowered ic P).length = P.length ∧ (lowered ic L).length = L.length ∧
    substr (lowered ic L) 0 pos = some ((lowered ic L).take pos) ∧
    substr (lowered ic L) pos (lowered ic P).length = some (lowered ic P) ∧
    substr_from (lowered ic L) (pos + (lowered ic P).length) =
      some ((lowered ic L).drop (pos + (lowered ic P).length)) ∧
    (lowered ic L).take pos ++ lowered ic P ++
      (lowered ic L).drop (pos + (lowered ic P).length) = lowered ic L ∧
    (∀ (colorize : Bool) (pfx : Str),
      ∃ chunk, emit colorize pfx (lowered ic L) (lowered ic P) pos = some chunk) := by
  obtain ⟨hle, heq, _⟩ := (find_eq_some_iff (lowered ic L) (lowered ic P) pos).mp h
  have hpos : pos ≤ (lowered ic L).length := by omega
  refine ⟨?_, lowered_length ic P, lowered_length ic L, ?_, ?_, ?_, ?_, ?_⟩
  · rw [← lowered_length ic P, ← lowered_length ic L]
    exact hle
  · simp [substr]
  · simp [substr, hpos, heq]
  · simp [substr_from, hle]
  · have hs := slices_append (lowered ic L) pos (lowered ic P).length
    rw [heq] at hs
    exact hs
  · intro colorize pfx
    exact ⟨_, emit_eq colorize pfx _ _ pos hle⟩

/-- Witness of C14: with `ignore_case`, the pattern `"OB"` is found at offset 2 of
`"fooBar"`. -/
theorem C14_slice_bounds_witness :
    match_pos (lit "fooBar") (lit "OB") true = some 2 ∧
    2 + (lit "OB").length ≤ (lit "fooBar").length ∧
    substr (lowered true (lit "fooBar")) 2 (lowered true (lit "OB")).length =
      some (lowered true (lit "OB")) :=
  ⟨by decide,
    (C14_slice_bounds (lit "fooBar") (lit "OB") true 2 (by decide)).1,
    (C14_slice_bounds (lit "fooBar") (lit "OB") true 2 (by decide)).2.2.2.2.1⟩

/-- C15: folding is idempotent, for the fold of the specification and for the lowering
of the code, and `print_matches` with `ignore_case = true` writes the same for a pattern
and for the pattern already folded. -/
theorem C15_fold_idempotent (colorize : Bool) (pfx : Str) (input : List Str) (P x : Str) :
    fold (fold x) = fold x ∧
    transform_tolower (transform_tolower x) = transform_tolower x ∧
    print_matches colorize pfx input P true = print_matches colorize pfx input (fold P) true ∧
    (∀ L, match_pos L P true = match_pos L (fold P) true) := by
  have h2 : transform_tolower (transform_tolower x) = transform_tolower x := by
    rw [transform_tolower_eq_fold, transform_tolower_eq_fold, fold_idem]
  have hP : transform_tolower (fold P) = transform_tolower P := by
    rw [transform_tolower_eq_fold, transform_tolower_eq_fold, fold_idem]
  refine ⟨fold_idem x, h2, ?_, ?_⟩
  · simp only [print_matches, if_true, hP]
  · intro L
    simp only [match_pos, if_true, hP]

/-- C16: empty pattern.  With the empty pattern the search succeeds at offset 0 of every
line, so `print_matches` writes exactly one chunk for each input line, in order, empty
lines included; on a terminal the two escape sequences come one after the other, the
highlighted slice being empty, and the whole line as searched follows the reset sequence
(the input line itself when `ignore_case` is not set).  The empty pattern is accepted by
`read_args`. -/
theorem C16_empty_pattern (colorize : Bool) (pfx : Str) (input : List Str) (ic : Bool) :
    (∀ L, match_pos L [] ic = some 0) ∧
    print_matches colorize pfx input [] ic =
      some (input.map (fun L =>
        if colorize then pfx ++ bold_red ++ reset ++ lowered ic L ++ endl
        else pfx ++ lowered ic L ++ endl)) ∧
    print_matches colorize pfx input [] false =
      some (input.map (fun L =>
        if colorize then pfx ++ bold_red ++ reset ++ L ++ endl else pfx ++ L ++ endl)) ∧
    (∀ out, print_matches colorize pfx input [] ic = some out → out.length = input.length) ∧
    print_matches true [] [[], lit "a"] [] ic =
      some [bold_red ++ reset ++ endl, bold_red ++ reset ++ lit "a" ++ endl] ∧
    (read_args (lit "rapid-grep") [[]]).ret = some ⟨false, false, [], []⟩ := by
  have hgen : ∀ ic : Bool, print_matches colorize pfx input [] ic =
      some (input.map (fun L =>
        if colorize then pfx ++ bold_red ++ reset ++ lowered ic L ++ endl
        else pfx ++ lowered ic L ++ endl)) := by
    intro ic
    have hl : lowered ic ([] : Str) = [] := by cases ic <;> rfl
    rw [print_matches_eq]
    have hf : input.filter (fun L => (match_pos L [] ic).isSome) = input := by
      rw [List.filter_eq_self]
      intro L _
      rw [match_pos_empty]
      rfl
    rw [hf]
    congr 1
    apply List.map_congr_left
    intro L _
    have he := emit_eq colorize [] (lowered ic L) (lowered ic []) 0 (by simp [hl])
    rw [match_pos_empty, Option.getD_some]
    simp only [lowered] at he hl
    rw [he, hl]
    cases colorize <;> simp [lowered, List.append_assoc]
  refine ⟨fun L => match_pos_empty L ic, hgen ic, ?_, ?_, ?_, by decide⟩
  · have h := hgen false
    simpa [lowered] using h
  · intro out hout
    rw [hgen ic] at hout
    cases hout
    simp
  · cases ic <;> decide

/-- C17: mode selection.  For a configuration returned by `read_args` without
`help_only`, `main` searches standard input, and looks at nothing of the file system,
when `scanning_directory` is empty; otherwise it walks that directory and does not look
at standard input.  An empty directory argument, given as `-r ""`, `--recursive ""` or
`--recursive=`, leaves the whole run as it is without it. -/
theorem C17_mode_selection (w : World) (argv0 : Str) (args : List Str) (options : Options)
    (h : (read_args argv0 args).ret = some options) (hh : options.help_only = false) :
    (options.scanning_directory = [] →
      main w argv0 args =
        ⟨some 0, (print_matches w.isatty [] (read_input w.cin) options.pattern
          options.ignore_case).getD [], []⟩ ∧
      ∀ w1 : World, w1.isatty = w.isatty → w1.cin = w.cin →
        main w1 argv0 args = main w argv0 args) ∧
    (options.scanning_directory ≠ [] →
      main w argv0 args =
        ⟨if (w.walk options.scanning_directory).throws then none else some 0,
          ((w.walk options.scanning_directory).entries.filter
            (fun p => p.is_regular_file)).flatMap (fun p =>
              (print_matches w.isatty (prefix_of w p.path) (read_input p.content)
                options.pattern options.ignore_case).getD []), []⟩ ∧
      ∀ w1 : World, w1.isatty = w.isatty →
        w1.walk options.scanning_directory = w.walk options.scanning_directory →
        main w1 argv0 args = main w argv0 args) ∧
    (∀ rest, main w argv0 (lit "-r" :: [] :: rest) = main w argv0 rest) ∧
    (∀ rest, main w argv0 (lit "--recursive" :: [] :: rest) = main w argv0 rest) ∧
    (∀ rest, main w argv0 (lit "--recursive=" :: rest) = main w argv0 rest) := by
  refine ⟨?_, ?_, ?_, ?_, ?_⟩
  · intro hd
    refine ⟨?_, fun w1 h1 h2 => ?_⟩
    · rw [main_search w argv0 args options h hh]
      simp [hd]
    · rw [main_search w argv0 args options h hh, main_search w1 argv0 args options h hh]
      simp [hd, h1, h2]
  · intro hd
    refine ⟨?_, fun w1 h1 h2 => ?_⟩
    · rw [main_search w argv0 args options h hh]
      simp [hd]
    · rw [main_search w argv0 args options h hh, main_search w1 argv0 args options h hh]
      simp [hd, h1, h2, prefix_of, is_stdout_terminal]
  · intro rest
    exact main_of_read_args_eq w argv0 _ rest
      (read_args_of_empty_dir argv0 _ rest (getopt_long_r_empty rest))
  · intro rest
    exact main_of_read_args_eq w argv0 _ rest
      (read_args_of_empty_dir argv0 _ rest (getopt_long_recursive_empty rest))
  · intro rest
    exact main_of_read_args_eq w argv0 _ rest
      (read_args_of_empty_dir argv0 _ rest (getopt_long_recursive_eq_empty rest))

/-- Witness of C17: `rapid-grep -r "" foo` resolves to an empty directory and searches
standard input, `"foobar\nbaz\n"`, although a walk is available. -/
theorem C17_mode_selection_witness :
    (read_args (lit "rapid-grep") [lit "-r", [], lit "foo"]).ret =
      some ⟨false, false, lit "foo", []⟩ ∧
    main ⟨false, lit "foobar\nbaz\n", fun _ => ⟨[⟨lit "a", true, lit "food\n"⟩], false⟩⟩
      (lit "rapid-grep") [lit "-r", [], lit "foo"] = ⟨some 0, [lit "foobar\n"], []⟩ :=
  ⟨by decide,
    (((C17_mode_selection
      ⟨false, lit "foobar\nbaz\n", fun _ => ⟨[⟨lit "a", true, lit "food\n"⟩], false⟩⟩
      (lit "rapid-grep") [lit "-r", [], lit "foo"] ⟨false, false, lit "foo", []⟩
      (by decide) rfl).1 rfl).1).trans (by decide)⟩

/-- C18: exact emitted text.  For a line `L` in which the search succeeds at `pos`, the
chunk written is `pfx ++ a ++ m ++ b ++ newline`, with the two highlight sequences
around `m` on a terminal, where `a ++ m ++ b` is `L` when `ignore_case` is not set and
`fold L`, the lowered copy that was searched, when it is; without `ignore_case` the chunk
written off a terminal is the prefix, the input line itself and a newline. -/
theorem C18_exact_emitted_text (colorize : Bool) (pfx L P : Str) (ic : Bool) (pos : Nat)
    (h : match_pos L P ic = some pos) :
    (∃ a m b, a ++ m ++ b = (if ic then fold L else L) ∧ a.length = pos ∧
      m = (if ic then fold P else P) ∧
      print_matches colorize pfx [L] P ic =
        some [if colorize then pfx ++ a ++ bold_red ++ m ++ reset ++ b ++ endl
          else pfx ++ a ++ m ++ b ++ endl]) ∧
    print_matches false pfx [L] P ic = some [pfx ++ (if ic then fold L else L) ++ endl] ∧
    (ic = false → print_matches false pfx [L] P ic = some [pfx ++ L ++ endl]) := by
  have hlow : ∀ s : Str, lowered ic s = if ic then fold s else s := by
    intro s
    cases ic <;> simp [lowered, transform_tolower_eq_fold]
  obtain ⟨hle, heq, _⟩ := (find_eq_some_iff (lowered ic L) (lowered ic P) pos).mp h
  have hoff := print_matches_single_some false pfx L P ic pos h
  simp only [Bool.false_eq_true, if_false] at hoff
  refine ⟨⟨(lowered ic L).take pos, ((lowered ic L).drop pos).take (lowered ic P).length,
    (lowered ic L).drop (pos + (lowered ic P).length), ?_, ?_, ?_, ?_⟩, ?_, ?_⟩
  · rw [slices_append, hlow]
  · rw [List.length_take]
    omega
  · rw [heq, hlow]
  · rw [print_matches_single_some colorize pfx L P ic pos h]
    cases colorize
    · simp only [Bool.false_eq_true, if_false]
      have hs := slices_append (lowered ic L) pos (lowered ic P).length
      conv_lhs => rw [← hs]
      simp [List.append_assoc]
    · rfl
  · rw [hoff, hlow]
  · intro hic
    subst hic
    rw [hoff]
    rfl

/-- Witness of C18: with `ignore_case` on a terminal, the line `"FooBar"` and the pattern
`"OB"` found at offset 2: what is written around the highlight is `"foobar"`. -/
theorem C18_exact_emitted_text_witness :
    match_pos (lit "FooBar") (lit "OB") true = some 2 ∧
    print_matches false (lit "p:") [lit "FooBar"] (lit "OB") true =
      some [lit "p:" ++ (if true then fold (lit "FooBar") else lit "FooBar") ++ endl] ∧
    fold (lit "FooBar") = lit "foobar" :=
  ⟨by decide,
    (C18_exact_emitted_text true (lit "p:") (lit "FooBar") (lit "OB") true 2 (by decide)).2.1,
    by decide⟩

end RapidGrep
